import Mathlib

/-!
Verification development for the VRPTW local-search engine
(`src/problems/vrptw/local_search/local_search.cpp` and the operator
headers).  Pure fragments of the C++ source are translated into Lean
definitions; collaborator code that lives outside the given sources
(solution-state recomputation, the constructive heuristic, operator
internals) is modelled from the specification and marked as such in the
doc comments.
-/

namespace Vroom

/-- `amount_t`: a fixed-dimension vector of integers with pointwise
addition and pointwise comparison (spec §3, "Amount vector"). -/
abbrev Amount (D : Nat) := Fin D → ℤ

instance amountDecidableLE (D : Nat) : ∀ a b : Amount D, Decidable (a ≤ b) :=
  fun a b => decidable_of_iff (∀ i, a i ≤ b i) (by rw [Pi.le_def])

/-- Modelled from the spec: `fwd_amounts[v][r]` is the sum of the delivery
amounts of the jobs at ranks 0..r inclusive (spec §3); the from-scratch
recomputation `solution_state::update_amounts` is outside the given
sources.  The list argument is the route's per-rank job-amount list. -/
def fwd_amounts {D : Nat} : List (Amount D) → List (Amount D)
  | [] => []
  | a :: t => a :: (fwd_amounts t).map (a + ·)

/-- The backward cumulative amount cache in the convention that the
incremental update inside `try_job_additions` maintains
(local_search.cpp lines 128-135, which write `bwd[i] = total - fwd[i]`):
entry r holds the sum of the delivery amounts at ranks r+1..end,
equivalently `total_amount(v) - fwd_amounts[v][r]`. -/
def bwd_amounts {D : Nat} : List (Amount D) → List (Amount D)
  | [] => []
  | _ :: t => t.sum :: bwd_amounts t

/-- `total_amount(v) := fwd_amounts[v].back()` (spec §3); `0` for an
empty route. -/
def total_amount {D : Nat} (fwd : List (Amount D)) : Amount D :=
  fwd.getLast?.getD 0

@[simp] theorem length_fwd_amounts {D : Nat} (l : List (Amount D)) :
    (fwd_amounts l).length = l.length := by
  induction l with
  | nil => rfl
  | cons a t ih => simp [fwd_amounts, ih]

@[simp] theorem length_bwd_amounts {D : Nat} (l : List (Amount D)) :
    (bwd_amounts l).length = l.length := by
  induction l with
  | nil => rfl
  | cons a t ih => simp [bwd_amounts, ih]

theorem fwd_amounts_getElem? {D : Nat} (l : List (Amount D)) (i : Nat) :
    (fwd_amounts l)[i]? =
      if i < l.length then some ((l.take (i + 1)).sum) else none := by
  induction l generalizing i with
  | nil => simp [fwd_amounts]
  | cons a t ih =>
    cases i with
    | zero => simp [fwd_amounts]
    | succ j =>
      simp only [fwd_amounts, List.getElem?_cons_succ, List.getElem?_map, ih,
        List.length_cons, List.take_succ_cons, List.sum_cons]
      by_cases h : j < t.length
      · simp [h, Nat.succ_lt_succ h]
      · simp [h, fun hh => h (Nat.lt_of_succ_lt_succ hh)]

theorem bwd_amounts_getElem? {D : Nat} (l : List (Amount D)) (i : Nat) :
    (bwd_amounts l)[i]? =
      if i < l.length then some ((l.drop (i + 1)).sum) else none := by
  induction l generalizing i with
  | nil => simp [bwd_amounts]
  | cons a t ih =>
    cases i with
    | zero => simp [bwd_amounts]
    | succ j =>
      simp only [bwd_amounts, List.getElem?_cons_succ, ih, List.length_cons,
        List.drop_succ_cons]
      by_cases h : j < t.length
      · simp [h, Nat.succ_lt_succ h]
      · simp [h, fun hh => h (Nat.lt_of_succ_lt_succ hh)]

theorem total_amount_fwd {D : Nat} (l : List (Amount D)) :
    total_amount (fwd_amounts l) = l.sum := by
  unfold total_amount
  rcases Nat.eq_zero_or_pos l.length with h0 | hpos
  · rw [List.length_eq_zero] at h0
    subst h0; rfl
  · rw [List.getLast?_eq_getElem?, length_fwd_amounts, fwd_amounts_getElem?]
    have h : l.length - 1 < l.length := Nat.sub_lt hpos Nat.one_pos
    rw [if_pos h]
    have : l.length - 1 + 1 = l.length := Nat.succ_pred_eq_of_pos hpos
    simp [this]

/-! ### Incremental amount-cache update after a job addition

Translated from `try_job_additions` (local_search.cpp lines 114-135):
after inserting the chosen job at rank `best_rank`, the forward cache gets
`previous_cumul + job_amount` inserted at that rank and `job_amount` added
to every later entry; the backward cache gets a dummy zero inserted at
that rank, after which entries 0..best_rank are rewritten to
`total_amount - fwd_amounts[i]`. -/

/-- Forward-amount incremental update (local_search.cpp lines 118-126). -/
def add_update_fwd {D : Nat} (fwd : List (Amount D)) (r : Nat) (a : Amount D) :
    List (Amount D) :=
  let previous_cumul : Amount D := if r = 0 then 0 else fwd.getD (r - 1) 0
  fwd.take r ++ (previous_cumul + a) :: (fwd.drop r).map (· + a)

/-- Backward-amount incremental update (local_search.cpp lines 128-135). -/
def add_update_bwd {D : Nat} (bwd new_fwd : List (Amount D)) (r : Nat) :
    List (Amount D) :=
  let inserted := bwd.take r ++ (0 : Amount D) :: bwd.drop r
  let total := new_fwd.getLast?.getD 0
  (List.range inserted.length).map
    (fun i => if i ≤ r then total - new_fwd.getD i 0 else inserted.getD i 0)

/-- The route's amount list after inserting amount `a` at rank `r`. -/
def insert_amount {D : Nat} (l : List (Amount D)) (r : Nat) (a : Amount D) :
    List (Amount D) :=
  l.take r ++ a :: l.drop r

@[simp] theorem length_insert_amount {D : Nat} (l : List (Amount D)) (r : Nat)
    (a : Amount D) (hr : r ≤ l.length) :
    (insert_amount l r a).length = l.length + 1 := by
  simp [insert_amount]
  omega

theorem insert_amount_take_lt {D : Nat} (l : List (Amount D)) (r i : Nat)
    (a : Amount D) (hr : r ≤ l.length) (hir : i < r) :
    (insert_amount l r a).take (i + 1) = l.take (i + 1) := by
  unfold insert_amount
  rw [List.take_append_of_le_length (by simp [List.length_take]; omega),
    List.take_take, Nat.min_eq_left (by omega)]

theorem insert_amount_take_self {D : Nat} (l : List (Amount D)) (r : Nat)
    (a : Amount D) (hr : r ≤ l.length) :
    (insert_amount l r a).take (r + 1) = l.take r ++ [a] := by
  unfold insert_amount
  rw [List.take_append_eq_append_take, List.take_take,
    Nat.min_eq_right (by omega), List.length_take, Nat.min_eq_left hr,
    Nat.add_sub_cancel_left]
  simp

theorem insert_amount_take_gt {D : Nat} (l : List (Amount D)) (r i : Nat)
    (a : Amount D) (hr : r ≤ l.length) (hir : r < i) :
    (insert_amount l r a).take (i + 1) =
      l.take r ++ a :: (l.drop r).take (i - r) := by
  unfold insert_amount
  rw [List.take_append_eq_append_take, List.take_take,
    Nat.min_eq_right (by omega), List.length_take, Nat.min_eq_left hr]
  have h1 : i + 1 - r = (i - r) + 1 := by omega
  rw [h1, List.take_succ_cons]

theorem fwd_amounts_previous_cumul {D : Nat} (l : List (Amount D)) (r : Nat)
    (hr : r ≤ l.length) :
    (if r = 0 then (0 : Amount D) else (fwd_amounts l).getD (r - 1) 0) =
      (l.take r).sum := by
  rcases Nat.eq_zero_or_pos r with h0 | hpos
  · subst h0; simp
  · rw [if_neg (by omega), List.getD_eq_getElem?_getD, fwd_amounts_getElem?,
      if_pos (by omega)]
    have h1 : r - 1 + 1 = r := by omega
    simp [h1]

theorem add_update_fwd_coherent {D : Nat} (l : List (Amount D)) (r : Nat)
    (a : Amount D) (hr : r ≤ l.length) :
    add_update_fwd (fwd_amounts l) r a = fwd_amounts (insert_amount l r a) := by
  apply List.ext_getElem?
  intro i
  have hlen : (insert_amount l r a).length = l.length + 1 :=
    length_insert_amount l r a hr
  have htl : ((fwd_amounts l).take r).length = r := by
    simp [List.length_take]; omega
  rw [fwd_amounts_getElem?, hlen]
  unfold add_update_fwd
  rw [List.getElem?_append, htl]
  rcases Nat.lt_trichotomy i r with hir | hir | hir
  · -- i < r : untouched entries, new list agrees with old on the first r ranks
    have hil : i < l.length := Nat.lt_of_lt_of_le hir hr
    rw [if_pos hir, List.getElem?_take_of_lt hir, fwd_amounts_getElem?,
      if_pos hil, if_pos (by omega), insert_amount_take_lt l r i a hr hir]
  · -- i = r : the inserted entry equals previous cumul + a
    subst hir
    have hlt2 : i < l.length + 1 := by omega
    rw [if_neg (Nat.lt_irrefl i), Nat.sub_self, List.getElem?_cons_zero,
      if_pos hlt2, insert_amount_take_self l i a hr,
      List.sum_append, List.sum_cons, List.sum_nil, add_zero]
    rw [fwd_amounts_previous_cumul l i hr]
  · -- r < i : shifted entries, each old prefix sum plus the new amount
    have hnir : ¬ (i < r) := by omega
    rw [if_neg hnir]
    by_cases hi : i < l.length + 1
    · have hsub : i - r = (i - r - 1) + 1 := by omega
      rw [hsub, List.getElem?_cons_succ, List.getElem?_map, List.getElem?_drop,
        fwd_amounts_getElem?]
      have hidx : r + (i - r - 1) = i - 1 := by omega
      have hlt3 : i - 1 < l.length := by omega
      rw [hidx, if_pos hlt3, if_pos hi,
        insert_amount_take_gt l r i a hr hir, List.sum_append, List.sum_cons]
      have hsplit : l.take (i - 1 + 1) = l.take r ++ (l.drop r).take (i - r) := by
        have h1 : i - 1 + 1 = r + (i - r) := by omega
        rw [h1, List.take_add]
      rw [hsplit, List.sum_append, Option.map_some']
      congr 1
      abel
    · rw [if_neg hi]
      apply List.getElem?_eq_none
      simp
      omega

theorem insert_amount_drop_gt {D : Nat} (l : List (Amount D)) (r i : Nat)
    (a : Amount D) (hr : r ≤ l.length) (hir : r < i) :
    (insert_amount l r a).drop (i + 1) = l.drop i := by
  unfold insert_amount
  rw [List.drop_append_eq_append_drop, List.drop_take, List.length_take,
    Nat.min_eq_left hr]
  have h1 : r - (i + 1) = 0 := by omega
  have h2 : i + 1 - r = (i - r) + 1 := by omega
  rw [h1, h2, List.take_zero, List.drop_succ_cons, List.drop_drop]
  have h3 : r + (i - r) = i := by omega
  simp [h3]

theorem add_update_bwd_coherent {D : Nat} (l : List (Amount D)) (r : Nat)
    (a : Amount D) (hr : r ≤ l.length) :
    add_update_bwd (bwd_amounts l) (add_update_fwd (fwd_amounts l) r a) r =
      bwd_amounts (insert_amount l r a) := by
  rw [add_update_fwd_coherent l r a hr]
  apply List.ext_getElem?
  intro i
  have hlen : (insert_amount l r a).length = l.length + 1 :=
    length_insert_amount l r a hr
  have hbl : ((bwd_amounts l).take r).length = r := by
    simp [List.length_take]; omega
  rw [bwd_amounts_getElem?, hlen]
  simp only [add_update_bwd]
  have hins : ((bwd_amounts l).take r ++
      (0 : Amount D) :: (bwd_amounts l).drop r).length = l.length + 1 := by
    simp [List.length_take]
    omega
  rw [hins]
  have htotal : (fwd_amounts (insert_amount l r a)).getLast?.getD 0 =
      (insert_amount l r a).sum := total_amount_fwd _
  by_cases hi : i < l.length + 1
  · rw [List.getElem?_map, List.getElem?_range hi, Option.map_some', if_pos hi]
    by_cases hir : i ≤ r
    · rw [if_pos hir]
      congr 1
      have hil : i < (insert_amount l r a).length := by omega
      rw [htotal, List.getD_eq_getElem?_getD, fwd_amounts_getElem?,
        if_pos hil]
      have hsd : (insert_amount l r a).sum =
          ((insert_amount l r a).take (i + 1)).sum +
            ((insert_amount l r a).drop (i + 1)).sum := by
        rw [← List.sum_append, List.take_append_drop]
      rw [Option.getD_some, hsd, add_sub_cancel_left]
    · rw [if_neg hir]
      have hnlt : ¬ (i < r) := by omega
      rw [List.getD_eq_getElem?_getD, List.getElem?_append, hbl, if_neg hnlt]
      have hsub : i - r = (i - r - 1) + 1 := by omega
      rw [hsub, List.getElem?_cons_succ, List.getElem?_drop,
        bwd_amounts_getElem?]
      have hidx : r + (i - r - 1) = i - 1 := by omega
      have hlt4 : i - 1 < l.length := by omega
      rw [hidx, if_pos hlt4]
      rw [insert_amount_drop_gt l r i a hr (by omega)]
      have h1 : i - 1 + 1 = i := by omega
      simp [h1]
  · rw [if_neg hi]
    apply List.getElem?_eq_none
    simp
    omega

theorem bwd_eq_total_sub_fwd {D : Nat} (l : List (Amount D)) (i : Nat)
    (h : i < l.length) :
    (bwd_amounts l).getD i 0 =
      total_amount (fwd_amounts l) - (fwd_amounts l).getD i 0 := by
  rw [total_amount_fwd, List.getD_eq_getElem?_getD, List.getD_eq_getElem?_getD,
    bwd_amounts_getElem?, fwd_amounts_getElem?, if_pos h, if_pos h,
    Option.getD_some, Option.getD_some]
  apply eq_sub_of_add_eq'
  rw [← List.sum_append, List.take_append_drop]

theorem fwd_getD_take_sum {D : Nat} (l : List (Amount D)) (i : Nat)
    (h : i < l.length) :
    (fwd_amounts l).getD i 0 = (l.take (i + 1)).sum := by
  rw [List.getD_eq_getElem?_getD, fwd_amounts_getElem?, if_pos h,
    Option.getD_some]

theorem bwd_getD_drop_sum {D : Nat} (l : List (Amount D)) (i : Nat)
    (h : i < l.length) :
    (bwd_amounts l).getD i 0 = (l.drop (i + 1)).sum := by
  rw [List.getD_eq_getElem?_getD, bwd_amounts_getElem?, if_pos h,
    Option.getD_some]

/-- Claim C9: after each insertion performed by `try_job_additions` at rank
`r` of a route whose per-rank amount list is `l`, the incrementally updated
caches (translated in `add_update_fwd` / `add_update_bwd` from
local_search.cpp lines 114-135) agree with a from-scratch recomputation:
every forward entry is the prefix sum of amounts at ranks 0..i, and every
backward entry equals `fwd.back() - fwd[i]` — even though the update loop
rewrites backward entries only at indices 0..r. -/
theorem try_job_additions_amount_cache_coherent {D : Nat}
    (l : List (Amount D)) (r : Nat) (a : Amount D) (hr : r ≤ l.length) :
    add_update_fwd (fwd_amounts l) r a = fwd_amounts (insert_amount l r a) ∧
    add_update_bwd (bwd_amounts l) (add_update_fwd (fwd_amounts l) r a) r =
      bwd_amounts (insert_amount l r a) ∧
    (∀ i, i < (insert_amount l r a).length →
      (fwd_amounts (insert_amount l r a)).getD i 0 =
        ((insert_amount l r a).take (i + 1)).sum) ∧
    (∀ i, i < (insert_amount l r a).length →
      (bwd_amounts (insert_amount l r a)).getD i 0 =
        total_amount (fwd_amounts (insert_amount l r a)) -
          (fwd_amounts (insert_amount l r a)).getD i 0) :=
  ⟨add_update_fwd_coherent l r a hr,
   add_update_bwd_coherent l r a hr,
   fun i hi => fwd_getD_take_sum _ i hi,
   fun i hi => bwd_eq_total_sub_fwd _ i hi⟩

theorem try_job_additions_amount_cache_coherent_witness :
    (1 : Nat) ≤ [(fun _ => (2 : ℤ) : Amount 1)].length ∧
    (add_update_fwd (fwd_amounts [(fun _ => (2 : ℤ) : Amount 1)]) 1
        (fun _ => 3) =
      fwd_amounts (insert_amount [(fun _ => (2 : ℤ) : Amount 1)] 1
        (fun _ => 3)) ∧
    add_update_bwd (bwd_amounts [(fun _ => (2 : ℤ) : Amount 1)])
        (add_update_fwd (fwd_amounts [(fun _ => (2 : ℤ) : Amount 1)]) 1
          (fun _ => 3)) 1 =
      bwd_amounts (insert_amount [(fun _ => (2 : ℤ) : Amount 1)] 1
        (fun _ => 3)) ∧
    (∀ i, i < (insert_amount [(fun _ => (2 : ℤ) : Amount 1)] 1
        (fun _ => 3)).length →
      (fwd_amounts (insert_amount [(fun _ => (2 : ℤ) : Amount 1)] 1
          (fun _ => 3))).getD i 0 =
        ((insert_amount [(fun _ => (2 : ℤ) : Amount 1)] 1
          (fun _ => 3)).take (i + 1)).sum) ∧
    (∀ i, i < (insert_amount [(fun _ => (2 : ℤ) : Amount 1)] 1
        (fun _ => 3)).length →
      (bwd_amounts (insert_amount [(fun _ => (2 : ℤ) : Amount 1)] 1
          (fun _ => 3))).getD i 0 =
        total_amount (fwd_amounts (insert_amount
          [(fun _ => (2 : ℤ) : Amount 1)] 1 (fun _ => 3))) -
          (fwd_amounts (insert_amount [(fun _ => (2 : ℤ) : Amount 1)] 1
            (fun _ => 3))).getD i 0)) :=
  ⟨by simp,
   try_job_additions_amount_cache_coherent
     [(fun _ => (2 : ℤ) : Amount 1)] 1 (fun _ => 3) (by simp)⟩

/-- Claim C3, counterexample: start from an empty route, whose caches are
trivially coherent in any convention, and run the incremental update of
`try_job_additions` for a job of amount 1 inserted at rank 0.  The updated
backward cache entry at rank 0 is the zero vector, not the sum of the
delivery amounts at ranks 0..end of the new route (which is 1): the cache
convention is "sum of ranks r+1..end", not "sum of ranks r..end". -/
theorem bwd_cache_not_suffix_sum_from_rank :
    (add_update_bwd (bwd_amounts ([] : List (Amount 1)))
        (add_update_fwd (fwd_amounts ([] : List (Amount 1))) 0 (fun _ => 1))
        0).getD 0 0 ≠
      ((insert_amount ([] : List (Amount 1)) 0 (fun _ => 1)).drop 0).sum := by
  intro h
  have h0 := congrFun h 0
  simp [add_update_bwd, add_update_fwd, insert_amount, fwd_amounts,
    bwd_amounts, total_amount] at h0

/-- Claim C3, amended: for every route, the cached backward cumulative
amount at rank r is the sum of the delivery amounts of the jobs at ranks
r+1..end (equivalently `total_amount - fwd_amounts[r]`),
`total_amount(v) = fwd_amounts[v].back()` is the sum of all amounts, and
this convention is preserved by the incremental update performed by
`try_job_additions` on each insertion. -/
theorem bwd_cache_suffix_sum_after_rank {D : Nat} (l : List (Amount D))
    (r : Nat) (a : Amount D) (hr : r ≤ l.length) :
    (∀ i, i < l.length →
      (bwd_amounts l).getD i 0 = (l.drop (i + 1)).sum) ∧
    total_amount (fwd_amounts l) = l.sum ∧
    add_update_bwd (bwd_amounts l) (add_update_fwd (fwd_amounts l) r a) r =
      bwd_amounts (insert_amount l r a) :=
  ⟨fun i hi => bwd_getD_drop_sum l i hi,
   total_amount_fwd l,
   add_update_bwd_coherent l r a hr⟩

theorem bwd_cache_suffix_sum_after_rank_witness :
    (0 : Nat) ≤ [(fun _ => (5 : ℤ) : Amount 1)].length ∧
    ((∀ i, i < [(fun _ => (5 : ℤ) : Amount 1)].length →
      (bwd_amounts [(fun _ => (5 : ℤ) : Amount 1)]).getD i 0 =
        ([(fun _ => (5 : ℤ) : Amount 1)].drop (i + 1)).sum) ∧
    total_amount (fwd_amounts [(fun _ => (5 : ℤ) : Amount 1)]) =
      [(fun _ => (5 : ℤ) : Amount 1)].sum ∧
    add_update_bwd (bwd_amounts [(fun _ => (5 : ℤ) : Amount 1)])
        (add_update_fwd (fwd_amounts [(fun _ => (5 : ℤ) : Amount 1)]) 0
          (fun _ => 7)) 0 =
      bwd_amounts (insert_amount [(fun _ => (5 : ℤ) : Amount 1)] 0
        (fun _ => 7))) :=
  ⟨by simp,
   bwd_cache_suffix_sum_after_rank [(fun _ => (5 : ℤ) : Amount 1)] 0
     (fun _ => 7) (by simp)⟩

/-! ### Early-break target-rank scans for 2-Opt* and Reverse 2-Opt*

Translated from `run()` (local_search.cpp lines 239-247 and 264-274): for a
fixed source rank the free amount is the source vehicle's capacity minus
`fwd_amounts[s][s_rank]`; the 2-Opt* scan walks target ranks from the last
rank downward and the Reverse 2-Opt* scan walks them upward from 0, each
breaking as soon as its capacity bound fails. -/

/-- 2-Opt* target-rank scan with early break (lines 243-247). -/
def two_opt_scan {D : Nat} (bwd_t : List (Amount D)) (free : Amount D) :
    List Nat :=
  ((List.range bwd_t.length).reverse).takeWhile
    (fun t_rank => decide (bwd_t.getD t_rank 0 ≤ free))

/-- Exhaustive 2-Opt* scan: keep every target rank satisfying the bound. -/
def two_opt_scan_exhaustive {D : Nat} (bwd_t : List (Amount D))
    (free : Amount D) : List Nat :=
  ((List.range bwd_t.length).reverse).filter
    (fun t_rank => decide (bwd_t.getD t_rank 0 ≤ free))

/-- Reverse 2-Opt* target-rank scan with early break (lines 270-274). -/
def reverse_two_opt_scan {D : Nat} (fwd_t : List (Amount D))
    (free : Amount D) : List Nat :=
  (List.range fwd_t.length).takeWhile
    (fun t_rank => decide (fwd_t.getD t_rank 0 ≤ free))

/-- Exhaustive Reverse 2-Opt* scan. -/
def reverse_two_opt_scan_exhaustive {D : Nat} (fwd_t : List (Amount D))
    (free : Amount D) : List Nat :=
  (List.range fwd_t.length).filter
    (fun t_rank => decide (fwd_t.getD t_rank 0 ≤ free))

/-- All (s_rank, t_rank) pairs visited by the 2-Opt* break scan. -/
def two_opt_pairs {D : Nat} (fwd_s bwd_t : List (Amount D))
    (cap_s : Amount D) : List (Nat × Nat) :=
  (List.range fwd_s.length).flatMap (fun s_rank =>
    (two_opt_scan bwd_t (cap_s - fwd_s.getD s_rank 0)).map
      (fun t_rank => (s_rank, t_rank)))

/-- All (s_rank, t_rank) pairs kept by the exhaustive 2-Opt* scan. -/
def two_opt_pairs_exhaustive {D : Nat} (fwd_s bwd_t : List (Amount D))
    (cap_s : Amount D) : List (Nat × Nat) :=
  (List.range fwd_s.length).flatMap (fun s_rank =>
    (two_opt_scan_exhaustive bwd_t (cap_s - fwd_s.getD s_rank 0)).map
      (fun t_rank => (s_rank, t_rank)))

/-- All (s_rank, t_rank) pairs visited by the Reverse 2-Opt* break scan. -/
def reverse_two_opt_pairs {D : Nat} (fwd_s fwd_t : List (Amount D))
    (cap_s : Amount D) : List (Nat × Nat) :=
  (List.range fwd_s.length).flatMap (fun s_rank =>
    (reverse_two_opt_scan fwd_t (cap_s - fwd_s.getD s_rank 0)).map
      (fun t_rank => (s_rank, t_rank)))

/-- All (s_rank, t_rank) pairs kept by the exhaustive Reverse 2-Opt* scan. -/
def reverse_two_opt_pairs_exhaustive {D : Nat} (fwd_s fwd_t : List (Amount D))
    (cap_s : Amount D) : List (Nat × Nat) :=
  (List.range fwd_s.length).flatMap (fun s_rank =>
    (reverse_two_opt_scan_exhaustive fwd_t (cap_s - fwd_s.getD s_rank 0)).map
      (fun t_rank => (s_rank, t_rank)))

theorem takeWhile_eq_filter_of_persistent {α : Type} (p : α → Bool)
    (l : List α) (h : l.Pairwise (fun x y => p y = true → p x = true)) :
    l.takeWhile p = l.filter p := by
  induction l with
  | nil => rfl
  | cons a t ih =>
    rw [List.pairwise_cons] at h
    by_cases ha : p a = true
    · rw [List.takeWhile_cons_of_pos ha, List.filter_cons_of_pos ha, ih h.2]
    · rw [List.takeWhile_cons_of_neg ha, List.filter_cons_of_neg ha]
      symm
      rw [List.filter_eq_nil_iff]
      intro x hx hpx
      exact ha (h.1 x hx hpx)

theorem fwd_amounts_monotone {D : Nat} (l : List (Amount D))
    (hpos : ∀ x ∈ l, 0 ≤ x) {i j : Nat} (hij : i ≤ j) (hj : j < l.length) :
    (fwd_amounts l).getD i 0 ≤ (fwd_amounts l).getD j 0 := by
  rw [fwd_getD_take_sum l i (Nat.lt_of_le_of_lt hij hj),
    fwd_getD_take_sum l j hj]
  have hsplit : l.take (j + 1) = l.take (i + 1) ++ (l.drop (i + 1)).take (j - i) := by
    have h1 : j + 1 = (i + 1) + (j - i) := by omega
    rw [h1, List.take_add]
  rw [hsplit, List.sum_append]
  apply le_add_of_nonneg_right
  apply List.sum_nonneg
  intro x hx
  exact hpos x (List.mem_of_mem_drop (List.mem_of_mem_take hx))

theorem bwd_amounts_antitone {D : Nat} (l : List (Amount D))
    (hpos : ∀ x ∈ l, 0 ≤ x) {i j : Nat} (hij : i ≤ j) (hj : j < l.length) :
    (bwd_amounts l).getD j 0 ≤ (bwd_amounts l).getD i 0 := by
  rw [bwd_getD_drop_sum l i (Nat.lt_of_le_of_lt hij hj),
    bwd_getD_drop_sum l j hj]
  have hdd : (l.drop (i + 1)).drop (j - i) = l.drop (j + 1) := by
    rw [List.drop_drop]
    congr 1
    omega
  have hsplit : l.drop (i + 1) = (l.drop (i + 1)).take (j - i) ++ l.drop (j + 1) := by
    rw [← hdd, List.take_append_drop]
  rw [hsplit, List.sum_append]
  apply le_add_of_nonneg_left
  apply List.sum_nonneg
  intro x hx
  exact hpos x (List.mem_of_mem_drop (List.mem_of_mem_take hx))

theorem two_opt_scan_eq_exhaustive {D : Nat} (amts_t : List (Amount D))
    (free : Amount D) (hpos : ∀ x ∈ amts_t, 0 ≤ x) :
    two_opt_scan (bwd_amounts amts_t) free =
      two_opt_scan_exhaustive (bwd_amounts amts_t) free := by
  apply takeWhile_eq_filter_of_persistent
  rw [List.pairwise_reverse]
  have h := List.pairwise_lt_range (bwd_amounts amts_t).length
  rw [List.Pairwise.and_mem] at h
  refine h.imp ?_
  rintro a b ⟨ha, hb, hab⟩
  intro hpa
  simp only [decide_eq_true_eq] at hpa ⊢
  refine le_trans ?_ hpa
  exact bwd_amounts_antitone amts_t hpos (Nat.le_of_lt hab)
    (by simpa using hb)

theorem reverse_two_opt_scan_eq_exhaustive {D : Nat} (amts_t : List (Amount D))
    (free : Amount D) (hpos : ∀ x ∈ amts_t, 0 ≤ x) :
    reverse_two_opt_scan (fwd_amounts amts_t) free =
      reverse_two_opt_scan_exhaustive (fwd_amounts amts_t) free := by
  apply takeWhile_eq_filter_of_persistent
  have h := List.pairwise_lt_range (fwd_amounts amts_t).length
  rw [List.Pairwise.and_mem] at h
  refine h.imp ?_
  rintro a b ⟨ha, hb, hab⟩
  intro hpb
  simp only [decide_eq_true_eq] at hpb ⊢
  refine le_trans ?_ hpb
  exact fwd_amounts_monotone amts_t hpos (Nat.le_of_lt hab)
    (by simpa using hb)

/-- Claim C6: when all job amounts of the target route are componentwise
non-negative, the early-break target-rank scans of `run()` for 2-Opt*
(descending t_rank, break when `bwd_amounts[t][t_rank] ≤ cap_s -
fwd_amounts[s][s_rank]` fails) and Reverse 2-Opt* (ascending t_rank, break
when `fwd_amounts[t][t_rank] ≤ cap_s - fwd_amounts[s][s_rank]` fails)
construct candidates for exactly the (s_rank, t_rank) pairs an exhaustive
scan filtered by the capacity bound keeps: the break skips no pair that
satisfies the bound. -/
theorem break_scans_complete {D : Nat} (amts_s amts_t : List (Amount D))
    (cap_s : Amount D) (hpos : ∀ x ∈ amts_t, 0 ≤ x) :
    two_opt_pairs (fwd_amounts amts_s) (bwd_amounts amts_t) cap_s =
      two_opt_pairs_exhaustive (fwd_amounts amts_s) (bwd_amounts amts_t)
        cap_s ∧
    reverse_two_opt_pairs (fwd_amounts amts_s) (fwd_amounts amts_t) cap_s =
      reverse_two_opt_pairs_exhaustive (fwd_amounts amts_s)
        (fwd_amounts amts_t) cap_s := by
  constructor
  · unfold two_opt_pairs two_opt_pairs_exhaustive
    refine congrArg _ (funext fun s_rank => ?_)
    rw [two_opt_scan_eq_exhaustive amts_t _ hpos]
  · unfold reverse_two_opt_pairs reverse_two_opt_pairs_exhaustive
    refine congrArg _ (funext fun s_rank => ?_)
    rw [reverse_two_opt_scan_eq_exhaustive amts_t _ hpos]

theorem break_scans_complete_witness :
    (∀ x ∈ [(fun _ => (1 : ℤ) : Amount 1), (fun _ => (2 : ℤ))], (0 : Amount 1) ≤ x) ∧
    (two_opt_pairs (fwd_amounts [(fun _ => (3 : ℤ) : Amount 1)])
        (bwd_amounts [(fun _ => (1 : ℤ) : Amount 1), (fun _ => (2 : ℤ))])
        (fun _ => 5) =
      two_opt_pairs_exhaustive (fwd_amounts [(fun _ => (3 : ℤ) : Amount 1)])
        (bwd_amounts [(fun _ => (1 : ℤ) : Amount 1), (fun _ => (2 : ℤ))])
        (fun _ => 5) ∧
    reverse_two_opt_pairs (fwd_amounts [(fun _ => (3 : ℤ) : Amount 1)])
        (fwd_amounts [(fun _ => (1 : ℤ) : Amount 1), (fun _ => (2 : ℤ))])
        (fun _ => 5) =
      reverse_two_opt_pairs_exhaustive
        (fwd_amounts [(fun _ => (3 : ℤ) : Amount 1)])
        (fwd_amounts [(fun _ => (1 : ℤ) : Amount 1), (fun _ => (2 : ℤ))])
        (fun _ => 5)) :=
  ⟨by
    intro x hx
    simp only [List.mem_cons, List.mem_singleton, List.not_mem_nil,
      or_false] at hx
    rcases hx with h | h <;> (subst h; intro i; norm_num),
   break_scans_complete [(fun _ => (3 : ℤ) : Amount 1)]
     [(fun _ => (1 : ℤ) : Amount 1), (fun _ => (2 : ℤ))] (fun _ => 5)
     (by
       intro x hx
       simp only [List.mem_cons, List.mem_singleton, List.not_mem_nil,
         or_false] at hx
       rcases hx with h | h <;> (subst h; intro i; norm_num))⟩

/-! ### Operator symmetry deduplication over source/target pairs (C8)

Translated from `run()`: the initial pair list enumerates every ordered
pair with `s_v ≠ t_v` (lines 162-170); the Exchange, CrossExchange and
2-Opt* phases skip a pair when `t_v ≤ s_v` (lines 179, 207, 235), while
the Reverse 2-Opt* phase (line 265) applies no such skip. -/

/-- Initial source/target pair list (lines 162-170). -/
def init_s_t_pairs (V : Nat) : List (Nat × Nat) :=
  (List.range V).flatMap (fun s_v =>
    ((List.range V).filter (fun t_v => decide (s_v ≠ t_v))).map
      (fun t_v => (s_v, t_v)))

theorem mem_init_s_t_pairs (V s t : Nat) :
    (s, t) ∈ init_s_t_pairs V ↔ s < V ∧ t < V ∧ s ≠ t := by
  simp only [init_s_t_pairs, List.mem_flatMap, List.mem_map,
    List.mem_filter, List.mem_range, decide_eq_true_eq, Prod.mk.injEq]
  constructor
  · rintro ⟨a, ha, b, ⟨hb, hab⟩, hs, ht⟩
    subst hs; subst ht
    exact ⟨ha, hb, hab⟩
  · rintro ⟨hs, ht, hst⟩
    exact ⟨s, hs, t, ⟨ht, hst⟩, rfl, rfl⟩

/-- Pairs the Exchange phase actually processes (lines 178-183). -/
def exchange_pairs (pairs : List (Nat × Nat)) (route_size : Nat → Nat) :
    List (Nat × Nat) :=
  pairs.filter (fun s_t =>
    !(decide (s_t.2 ≤ s_t.1) || decide (route_size s_t.1 = 0) ||
      decide (route_size s_t.2 = 0)))

/-- Pairs the CrossExchange phase actually processes (lines 206-210). -/
def cross_exchange_pairs (pairs : List (Nat × Nat)) (route_size : Nat → Nat) :
    List (Nat × Nat) :=
  pairs.filter (fun s_t =>
    !(decide (s_t.2 ≤ s_t.1) || decide (route_size s_t.1 < 2) ||
      decide (route_size s_t.2 < 2)))

/-- Pairs the 2-Opt* phase actually processes (lines 234-237). -/
def two_opt_star_pairs (pairs : List (Nat × Nat)) : List (Nat × Nat) :=
  pairs.filter (fun s_t => !decide (s_t.2 ≤ s_t.1))

/-- Pairs the Reverse 2-Opt* phase actually processes (lines 264-266): the
loop body has no symmetry skip, every pair of the list is scanned. -/
def reverse_two_opt_star_pairs (pairs : List (Nat × Nat)) :
    List (Nat × Nat) :=
  pairs

/-- Claim C8: Exchange, CrossExchange and 2-Opt* candidates are built only
for pairs with `s_v < t_v` (plus their length preconditions), while the
Reverse 2-Opt* phase scans every ordered pair of the active list, which for
the initial list means every (s_v, t_v) with s_v ≠ t_v, without `s_v < t_v`
deduplication. -/
theorem operator_pair_symmetry (V : Nat) (pairs : List (Nat × Nat))
    (route_size : Nat → Nat) :
    (∀ p, p ∈ exchange_pairs pairs route_size ↔
      p ∈ pairs ∧ p.1 < p.2 ∧ route_size p.1 ≠ 0 ∧ route_size p.2 ≠ 0) ∧
    (∀ p, p ∈ cross_exchange_pairs pairs route_size ↔
      p ∈ pairs ∧ p.1 < p.2 ∧ 2 ≤ route_size p.1 ∧ 2 ≤ route_size p.2) ∧
    (∀ p, p ∈ two_opt_star_pairs pairs ↔ p ∈ pairs ∧ p.1 < p.2) ∧
    reverse_two_opt_star_pairs pairs = pairs ∧
    (∀ s t : Nat, (s, t) ∈ init_s_t_pairs V ↔ s < V ∧ t < V ∧ s ≠ t) := by
  refine ⟨?_, ?_, ?_, rfl, ?_⟩
  · intro p
    simp [exchange_pairs, List.mem_filter, not_or, Nat.not_le, and_assoc]
  · intro p
    simp [cross_exchange_pairs, List.mem_filter, not_or, Nat.not_le,
      Nat.not_lt, and_assoc]
  · intro p
    simp [two_opt_star_pairs, List.mem_filter, Nat.not_le]
  · exact fun s t => mem_init_s_t_pairs V s t

theorem operator_pair_symmetry_witness :
    ((0, 1) ∈ exchange_pairs (init_s_t_pairs 2) (fun _ => 1) ↔
      (0, 1) ∈ init_s_t_pairs 2 ∧ 0 < 1 ∧ (1 : Nat) ≠ 0 ∧ (1 : Nat) ≠ 0) ∧
    reverse_two_opt_star_pairs (init_s_t_pairs 2) = init_s_t_pairs 2 ∧
    ((1, 0) ∈ init_s_t_pairs 2 ↔ 1 < 2 ∧ 0 < 2 ∧ (1 : Nat) ≠ 0) :=
  ⟨((operator_pair_symmetry 2 (init_s_t_pairs 2) (fun _ => 1)).1 (0, 1)),
   (operator_pair_symmetry 2 (init_s_t_pairs 2) (fun _ => 1)).2.2.2.1,
   ((operator_pair_symmetry 2 (init_s_t_pairs 2) (fun _ => 1)).2.2.2.2 1 0)⟩

/-! ### best_gains / best_ops consistency across a run (C10)

`run()` keeps two V×V tables: `best_gains` (all zero initially, line 172)
and `best_ops` (all null initially, lines 156-159).  Every write happens in
a phase branch guarded by `r.is_valid() and r.gain() > best_gains[s][t]`
and stores the gain and the operator together (e.g. lines 196-200); after a
move is applied, the reset step (lines 421-443) zeroes the gain entries of
every pair touching the two mutated vehicles but leaves `best_ops`
untouched.  `M` abstracts the stored operator value. -/

structure PairBest (M : Type) where
  best_gains : Nat → Nat → Int
  best_ops : Nat → Nat → Option M

/-- Initial tables (lines 156-159 and 172). -/
def init_pair_best (M : Type) : PairBest M :=
  ⟨fun _ _ => 0, fun _ _ => none⟩

/-- One candidate evaluation in any phase branch (e.g. lines 196-200):
the tables change only when the candidate is valid and its gain strictly
exceeds the stored gain, and then both entries are written together. -/
def eval_candidate {M : Type} (st : PairBest M) (s t : Nat) (valid : Bool)
    (g : Int) (m : M) : PairBest M :=
  if valid ∧ st.best_gains s t < g then
    { best_gains := fun a b => if a = s ∧ b = t then g else st.best_gains a b,
      best_ops := fun a b => if a = s ∧ b = t then some m else st.best_ops a b }
  else st

/-- The post-apply reset (lines 421-443): every gain entry in a row or
column of the two touched vehicles is zeroed; `best_ops` is not reset. -/
def reset_pair_gains {M : Type} (st : PairBest M) (src tgt : Nat) :
    PairBest M :=
  { best_gains := fun a b =>
      if a = src ∨ a = tgt ∨ b = src ∨ b = tgt then 0 else st.best_gains a b,
    best_ops := st.best_ops }

inductive LSEvent (M : Type) where
  | eval (s t : Nat) (valid : Bool) (g : Int) (m : M)
  | reset (src tgt : Nat)

def ls_step {M : Type} (st : PairBest M) : LSEvent M → PairBest M
  | LSEvent.eval s t valid g m => eval_candidate st s t valid g m
  | LSEvent.reset src tgt => reset_pair_gains st src tgt

/-- The tables after any interleaving of candidate writes and resets. -/
def ls_run {M : Type} (evts : List (LSEvent M)) : PairBest M :=
  evts.foldl ls_step (init_pair_best M)

theorem ls_step_invariant {M : Type} (st : PairBest M) (e : LSEvent M)
    (h : ∀ s t, 0 < st.best_gains s t → (st.best_ops s t).isSome) :
    ∀ s t, 0 < (ls_step st e).best_gains s t →
      ((ls_step st e).best_ops s t).isSome := by
  intro s t
  cases e with
  | eval s' t' valid g m =>
    simp only [ls_step, eval_candidate]
    by_cases hc : valid = true ∧ st.best_gains s' t' < g
    · rw [if_pos hc]
      by_cases hst : s = s' ∧ t = t'
      · simp [hst]
      · simp only [hst, if_neg, if_false]
        exact h s t
    · rw [if_neg hc]
      exact h s t
  | reset src tgt =>
    simp only [ls_step, reset_pair_gains]
    by_cases hst : s = src ∨ s = tgt ∨ t = src ∨ t = tgt
    · rw [if_pos hst]
      intro hlt
      exact absurd hlt (lt_irrefl 0)
    · rw [if_neg hst]
      exact h s t

theorem ls_fold_invariant {M : Type} (evts : List (LSEvent M)) :
    ∀ st : PairBest M,
      (∀ s t, 0 < st.best_gains s t → (st.best_ops s t).isSome) →
      ∀ s t, 0 < (evts.foldl ls_step st).best_gains s t →
        ((evts.foldl ls_step st).best_ops s t).isSome := by
  induction evts with
  | nil => intro st h; exact h
  | cons e rest ih =>
    intro st h
    exact ih (ls_step st e) (ls_step_invariant st e h)

/-- Claim C10 (amended): after any sequence of candidate evaluations and
post-apply resets, every strictly positive `best_gains[s][t]` entry has a
stored operator in `best_ops[s][t]`: positive gains are written only
together with an operator, and the reset step zeroes the gains (leaving
any stale stored operator in place with gain 0, which preserves the
implication), so the `assert(best_ops[best_source][best_target] !=
nullptr)` before `apply()` holds and the dereference is safe. -/
theorem best_gain_implies_best_op {M : Type} (evts : List (LSEvent M))
    (s t : Nat) (h : 0 < (ls_run evts).best_gains s t) :
    ((ls_run evts).best_ops s t).isSome :=
  ls_fold_invariant evts (init_pair_best M)
    (fun _ _ hg => absurd hg (lt_irrefl 0)) s t h

theorem best_gain_implies_best_op_witness :
    0 < (ls_run [LSEvent.eval 0 1 true 5 ()]).best_gains 0 1 ∧
    ((ls_run [LSEvent.eval 0 1 true 5 ()]).best_ops 0 1).isSome :=
  ⟨by decide,
   best_gain_implies_best_op [LSEvent.eval 0 1 true 5 ()] 0 1 (by decide)⟩

/-- Claim C10, counterexample to the reset clause as stated: the reset step
does not zero `best_ops` together with `best_gains` — after a positive
write at (0, 1) followed by a reset touching vehicle 0, the gain entry is
0 but the stored operator is still present. -/
theorem reset_does_not_clear_best_ops :
    (ls_run [LSEvent.eval 0 1 true 5 (), LSEvent.reset 0 2]).best_gains 0 1 = 0 ∧
    (ls_run [LSEvent.eval 0 1 true 5 (), LSEvent.reset 0 2]).best_ops 0 1 ≠
      none := by
  constructor
  · decide
  · decide

/-! ### Route straightening (C7)

Translated from `straighten_route` (local_search.cpp lines 450-478).  The
external constructive heuristic `single_route_heuristic` (outside the given
sources) is represented by its two results `heur_fwd` (forward
orientation, line 454) and `heur_rev` (reverse, lines 456-457); the
`route_cost_for_vehicle` oracle is the abstract `cost_for`.  Routes are
job-index lists; the result carries the route and its cached cost. -/

/-- Variant preference (lines 459-464): take the reverse result when it
serves more jobs, or the same number at strictly lower cost. -/
def straighten_choice (heur_fwd heur_rev : List Nat)
    (cost_for : List Nat → Int) : List Nat :=
  if heur_fwd.length < heur_rev.length ∨
      (heur_rev.length = heur_fwd.length ∧
        cost_for heur_rev < cost_for heur_fwd) then
    heur_rev
  else
    heur_fwd

/-- `straighten_route` (lines 450-478): on a non-empty route, replace it by
the chosen rebuilt variant only when that variant has the same length and a
cost strictly below the cached cost, updating the cached cost; otherwise
leave route and cached cost unchanged. -/
def straighten_route (current : List Nat) (before_cost : Int)
    (heur_fwd heur_rev : List Nat) (cost_for : List Nat → Int) :
    List Nat × Int :=
  if 0 < current.length then
    let new_tw_r := straighten_choice heur_fwd heur_rev cost_for
    if new_tw_r.length = current.length then
      if cost_for new_tw_r < before_cost then
        (new_tw_r, cost_for new_tw_r)
      else
        (current, before_cost)
    else
      (current, before_cost)
  else
    (current, before_cost)

theorem mem_of_subset_of_nodup_of_le_length {l' l : List Nat}
    (hsub : l' ⊆ l) (hn' : l'.Nodup) (hn : l.Nodup)
    (hlen : l.length ≤ l'.length) : ∀ j ∈ l, j ∈ l' := by
  have hsubf : l'.toFinset ⊆ l.toFinset := by
    intro x hx
    rw [List.mem_toFinset] at hx ⊢
    exact hsub hx
  have hcard : l.toFinset.card ≤ l'.toFinset.card := by
    rw [List.toFinset_card_of_nodup hn, List.toFinset_card_of_nodup hn']
    exact hlen
  have heq := Finset.eq_of_subset_of_card_le hsubf hcard
  intro j hj
  rw [← List.mem_toFinset, ← heq, List.mem_toFinset] at hj
  exact hj

/-- Claim C7: for every route, `straighten_route` either leaves the route
and its cached cost unchanged, or replaces them by the preferred rebuilt
variant — and it does the latter only when that variant serves exactly as
many jobs as the current route and costs strictly less than the cached
cost; when the heuristic results serve subsets of the current job set (its
contract) and routes carry no duplicate jobs, no job is ever dropped. -/
theorem straighten_route_safe (current heur_fwd heur_rev : List Nat)
    (before_cost : Int) (cost_for : List Nat → Int)
    (hf : heur_fwd ⊆ current) (hr : heur_rev ⊆ current)
    (hnc : current.Nodup) (hnf : heur_fwd.Nodup) (hnr : heur_rev.Nodup) :
    (straighten_route current before_cost heur_fwd heur_rev cost_for =
        (current, before_cost) ∨
      (straighten_route current before_cost heur_fwd heur_rev cost_for =
          (straighten_choice heur_fwd heur_rev cost_for,
           cost_for (straighten_choice heur_fwd heur_rev cost_for)) ∧
        (straighten_choice heur_fwd heur_rev cost_for).length =
          current.length ∧
        cost_for (straighten_choice heur_fwd heur_rev cost_for) <
          before_cost)) ∧
    (∀ j ∈ current,
      j ∈ (straighten_route current before_cost heur_fwd heur_rev
        cost_for).1) := by
  have hchoice_sub : straighten_choice heur_fwd heur_rev cost_for ⊆ current := by
    unfold straighten_choice
    split
    · exact hr
    · exact hf
  have hchoice_nodup : (straighten_choice heur_fwd heur_rev cost_for).Nodup := by
    unfold straighten_choice
    split
    · exact hnr
    · exact hnf
  unfold straighten_route
  by_cases h0 : 0 < current.length
  · rw [if_pos h0]
    simp only []
    by_cases hl : (straighten_choice heur_fwd heur_rev cost_for).length =
        current.length
    · rw [if_pos hl]
      by_cases hc : cost_for (straighten_choice heur_fwd heur_rev cost_for) <
          before_cost
      · rw [if_pos hc]
        refine ⟨Or.inr ⟨rfl, hl, hc⟩, ?_⟩
        exact mem_of_subset_of_nodup_of_le_length hchoice_sub hchoice_nodup
          hnc (Nat.le_of_eq hl.symm)
      · rw [if_neg hc]
        exact ⟨Or.inl rfl, fun j hj => hj⟩
    · rw [if_neg hl]
      exact ⟨Or.inl rfl, fun j hj => hj⟩
  · rw [if_neg h0]
    exact ⟨Or.inl rfl, fun j hj => hj⟩

theorem straighten_route_safe_witness :
    ([2, 1] ⊆ [1, 2] ∧ [1] ⊆ [1, 2] ∧ ([1, 2] : List Nat).Nodup ∧
      ([2, 1] : List Nat).Nodup ∧ ([1] : List Nat).Nodup) ∧
    ((straighten_route [1, 2] 10 [2, 1] [1] (fun l => (l.headD 0 : Int)) =
        ([1, 2], 10) ∨
      (straighten_route [1, 2] 10 [2, 1] [1] (fun l => (l.headD 0 : Int)) =
          (straighten_choice [2, 1] [1] (fun l => (l.headD 0 : Int)),
           (fun l : List Nat => (l.headD 0 : Int))
             (straighten_choice [2, 1] [1] (fun l => (l.headD 0 : Int)))) ∧
        (straighten_choice [2, 1] [1] (fun l => (l.headD 0 : Int))).length =
          ([1, 2] : List Nat).length ∧
        (fun l : List Nat => (l.headD 0 : Int))
            (straighten_choice [2, 1] [1] (fun l => (l.headD 0 : Int))) < 10)) ∧
     (∀ j ∈ ([1, 2] : List Nat),
       j ∈ (straighten_route [1, 2] 10 [2, 1] [1]
         (fun l => (l.headD 0 : Int))).1)) :=
  ⟨⟨by decide, by decide, by decide, by decide, by decide⟩,
   straighten_route_safe [1, 2] [2, 1] [1] 10 (fun l => (l.headD 0 : Int))
     (by decide) (by decide) (by decide) (by decide) (by decide)⟩

/-! ### The post-apply cost assertion (C1)

Translated from `run()` lines 379-392: `previous_cost` is read from the
cached `route_costs` of the two vehicles of the selected move, the move's
`apply()` mutates the two routes, both costs are recomputed with the
route-cost oracle (`solution_state::update_route_cost` is outside the
given sources), and `assert(new_cost + best_gain == previous_cost)`
checks the gain accounting. -/

/-- A promoted move as the engine sees it: its two vehicles, its recorded
gain, and the effect of `apply()` on the route table. -/
structure MoveModel (J : Type) where
  s_vehicle : Nat
  t_vehicle : Nat
  gain : Int
  apply_routes : (Nat → List J) → (Nat → List J)
  addition_candidates : List Nat

/-- The pair (previous_cost, new_cost) computed by `run()` around
`apply()` (lines 385-390). -/
def post_apply_costs {J : Type} (cost_of : Nat → List J → Int)
    (route_costs : Nat → Int) (routes : Nat → List J) (m : MoveModel J) :
    Int × Int :=
  let previous_cost := route_costs m.s_vehicle + route_costs m.t_vehicle
  let routes' := m.apply_routes routes
  let new_cost := cost_of m.s_vehicle (routes' m.s_vehicle) +
    cost_of m.t_vehicle (routes' m.t_vehicle)
  (previous_cost, new_cost)

/-- Claim C1: for every applied move, provided the cached costs of the two
touched routes are in sync before `apply()` (the engine refreshes them
after every mutation) and the move's gain satisfies the operator contract
(modelled from the spec §4.3: gain equals the cost of both routes before
minus after application; `compute_gain` is outside the given sources), the
recomputed combined cost plus the recorded gain equals the combined cost
before application — the post-apply assertion holds. -/
theorem post_apply_assertion {J : Type} (cost_of : Nat → List J → Int)
    (route_costs : Nat → Int) (routes : Nat → List J) (m : MoveModel J)
    (hsync_s : route_costs m.s_vehicle = cost_of m.s_vehicle
      (routes m.s_vehicle))
    (hsync_t : route_costs m.t_vehicle = cost_of m.t_vehicle
      (routes m.t_vehicle))
    (hgain : m.gain =
      cost_of m.s_vehicle (routes m.s_vehicle) +
        cost_of m.t_vehicle (routes m.t_vehicle) -
        cost_of m.s_vehicle ((m.apply_routes routes) m.s_vehicle) -
        cost_of m.t_vehicle ((m.apply_routes routes) m.t_vehicle)) :
    (post_apply_costs cost_of route_costs routes m).2 + m.gain =
      (post_apply_costs cost_of route_costs routes m).1 := by
  simp only [post_apply_costs]
  rw [hsync_s, hsync_t, hgain]
  ring

theorem post_apply_assertion_witness :
    ((fun v : Nat => ([[3, 4], [9]].getD v []).length * 2 : Nat → Int) 0 =
        (fun (_ : Nat) (l : List Nat) => (l.length * 2 : Int)) 0
          ((fun v => [[3, 4], [9]].getD v []) 0) ∧
      (fun v : Nat => ([[3, 4], [9]].getD v []).length * 2 : Nat → Int) 1 =
        (fun (_ : Nat) (l : List Nat) => (l.length * 2 : Int)) 1
          ((fun v => [[3, 4], [9]].getD v []) 1)) ∧
    (post_apply_costs (fun (_ : Nat) (l : List Nat) => (l.length * 2 : Int))
        (fun v : Nat => ([[3, 4], [9]].getD v []).length * 2)
        (fun v => [[3, 4], [9]].getD v [])
        ⟨0, 1, 2, fun ro => fun v => if v = 0 then (ro 0).drop 1 else ro v, []⟩).2 +
      (2 : Int) =
      (post_apply_costs (fun (_ : Nat) (l : List Nat) => (l.length * 2 : Int))
        (fun v : Nat => ([[3, 4], [9]].getD v []).length * 2)
        (fun v => [[3, 4], [9]].getD v [])
        ⟨0, 1, 2, fun ro => fun v => if v = 0 then (ro 0).drop 1
          else ro v, []⟩).1 :=
  ⟨⟨by decide, by decide⟩,
   post_apply_assertion (fun (_ : Nat) (l : List Nat) => (l.length * 2 : Int))
     (fun v : Nat => ([[3, 4], [9]].getD v []).length * 2)
     (fun v => [[3, 4], [9]].getD v [])
     ⟨0, 1, 2, fun ro => fun v => if v = 0 then (ro 0).drop 1 else ro v, []⟩
     (by decide) (by decide) (by decide)⟩

/-! ### Round-loop selection and termination (C2)

The selection step of `run()` (lines 360-376) resets `best_gain` to 0 and
scans every ordered pair `s_v ≠ t_v`, keeping the first strictly larger
stored gain; the loop `while (best_gain > 0)` (line 176) exits exactly when
no entry is positive.  The six candidate-evaluation phases and the applied
move live in operator code outside the given sources; one accepted round is
therefore abstracted by oracles: `gains st` is the `best_gains` table at
state `st`, and `out st s t` records the effect of straightening and
`try_job_additions` after applying the selected move at `(s, t)` —
modelled from the spec: `apply` lowers the touched cost by the recorded
gain (post-apply assertion), straightening only lowers costs further, and
each insertion removes an unassigned job at a non-negative cost. -/

/-- Best-gain selection (lines 360-376): fold of the strict-improvement
update over all ordered pairs, starting from gain 0 at pair (0, 0). -/
def find_best_gain (V : Nat) (gains : Nat → Nat → Int) : Int × Nat × Nat :=
  (init_s_t_pairs V).foldl
    (fun acc p =>
      if acc.1 < gains p.1 p.2 then (gains p.1 p.2, p.1, p.2) else acc)
    (0, 0, 0)

theorem fbg_foldl_mono (gains : Nat → Nat → Int) :
    ∀ (l : List (Nat × Nat)) (acc : Int × Nat × Nat),
      acc.1 ≤ (l.foldl (fun acc p =>
        if acc.1 < gains p.1 p.2 then (gains p.1 p.2, p.1, p.2) else acc)
        acc).1 := by
  intro l
  induction l with
  | nil => intro acc; exact le_refl _
  | cons q rest ih =>
    intro acc
    simp only [List.foldl_cons]
    by_cases h : acc.1 < gains q.1 q.2
    · rw [if_pos h]
      exact le_trans (le_of_lt h) (ih _)
    · rw [if_neg h]
      exact ih acc

theorem fbg_foldl_ge (gains : Nat → Nat → Int) :
    ∀ (l : List (Nat × Nat)) (acc : Int × Nat × Nat) (p : Nat × Nat),
      p ∈ l →
      gains p.1 p.2 ≤ (l.foldl (fun acc p =>
        if acc.1 < gains p.1 p.2 then (gains p.1 p.2, p.1, p.2) else acc)
        acc).1 := by
  intro l
  induction l with
  | nil => intro acc p hp; exact absurd hp (List.not_mem_nil p)
  | cons q rest ih =>
    intro acc p hp
    simp only [List.foldl_cons]
    rcases List.mem_cons.mp hp with hpq | hpr
    · subst hpq
      by_cases h : acc.1 < gains p.1 p.2
      · rw [if_pos h]
        exact fbg_foldl_mono gains rest _
      · rw [if_neg h]
        exact le_trans (le_of_not_lt h) (fbg_foldl_mono gains rest acc)
    · exact ih _ p hpr

theorem fbg_foldl_attained (gains : Nat → Nat → Int) :
    ∀ (l : List (Nat × Nat)) (acc : Int × Nat × Nat),
      (l.foldl (fun acc p =>
        if acc.1 < gains p.1 p.2 then (gains p.1 p.2, p.1, p.2) else acc)
        acc).1 = acc.1 ∨
      ∃ p ∈ l, (l.foldl (fun acc p =>
        if acc.1 < gains p.1 p.2 then (gains p.1 p.2, p.1, p.2) else acc)
        acc).1 = gains p.1 p.2 := by
  intro l
  induction l with
  | nil => intro acc; exact Or.inl rfl
  | cons q rest ih =>
    intro acc
    simp only [List.foldl_cons]
    by_cases h : acc.1 < gains q.1 q.2
    · rw [if_pos h]
      rcases ih (gains q.1 q.2, q.1, q.2) with heq | ⟨p, hp, heq⟩
      · exact Or.inr ⟨q, List.mem_cons_self q rest, heq⟩
      · exact Or.inr ⟨p, List.mem_cons_of_mem q hp, heq⟩
    · rw [if_neg h]
      rcases ih acc with heq | ⟨p, hp, heq⟩
      · exact Or.inl heq
      · exact Or.inr ⟨p, List.mem_cons_of_mem q hp, heq⟩

theorem find_best_gain_le_zero_iff (V : Nat) (gains : Nat → Nat → Int) :
    (find_best_gain V gains).1 ≤ 0 ↔
      ∀ s t, s < V → t < V → s ≠ t → gains s t ≤ 0 := by
  constructor
  · intro h s t hs ht hst
    refine le_trans ?_ h
    exact fbg_foldl_ge gains (init_s_t_pairs V) (0, 0, 0) (s, t)
      ((mem_init_s_t_pairs V s t).mpr ⟨hs, ht, hst⟩)
  · intro h
    rcases fbg_foldl_attained gains (init_s_t_pairs V) (0, 0, 0) with
      heq | ⟨p, hp, heq⟩
    · rw [find_best_gain, heq]
    · rw [find_best_gain, heq]
      obtain ⟨hs, ht, hst⟩ := (mem_init_s_t_pairs V p.1 p.2).mp (by
        cases p; exact hp)
      exact h p.1 p.2 hs ht hst

/-- Engine-level view of one round's effect: cost drop from straightening
the two touched routes, and the number and total addition cost of the jobs
reinserted by `try_job_additions`. -/
structure RoundOutcome where
  straighten_drop : Nat
  inserted : Nat
  inserted_cost : Nat

/-- Engine-level solution summary: total routing cost (a non-negative
integer) and the number of unassigned jobs. -/
structure EngineState where
  total_cost : Nat
  unassigned : Nat

/-- One iteration of the `while (best_gain > 0)` loop (lines 176 and
360-444): select the best pair; if its gain is positive, apply the move
(cost drops by the gain, per the post-apply assertion), straighten
(cost drops further by `straighten_drop`), and reinsert jobs
(`inserted` jobs leave `unassigned`, adding `inserted_cost`); otherwise
the loop exits (`none`). -/
def engine_round (V : Nat) (gains : EngineState → Nat → Nat → Int)
    (out : EngineState → Nat → Nat → RoundOutcome) (st : EngineState) :
    Option EngineState :=
  let best := find_best_gain V (gains st)
  if 0 < best.1 then
    let o := out st best.2.1 best.2.2
    some { total_cost :=
             st.total_cost - best.1.toNat - o.straighten_drop +
               o.inserted_cost,
           unassigned := st.unassigned - o.inserted }
  else
    none

/-- The loop, driven by fuel; `some st` means the loop exited at `st`. -/
def engine_iter (V : Nat) (gains : EngineState → Nat → Nat → Int)
    (out : EngineState → Nat → Nat → RoundOutcome) :
    Nat → EngineState → Option EngineState
  | 0, _ => none
  | fuel + 1, st =>
    match engine_round V gains out st with
    | none => some st
    | some st' => engine_iter V gains out fuel st'

/-- Round-effect contract, modelled from the spec: the applied gain plus
the straightening drop never exceeds the current total cost (costs are
non-negative integers), at most the currently unassigned jobs can be
inserted, and a round that inserts nothing adds no insertion cost. -/
def RoundContract (V : Nat) (gains : EngineState → Nat → Nat → Int)
    (out : EngineState → Nat → Nat → RoundOutcome) : Prop :=
  ∀ st s t, 0 < (find_best_gain V (gains st)).1 →
    (find_best_gain V (gains st)).1.toNat + (out st s t).straighten_drop ≤
        st.total_cost ∧
    (out st s t).inserted ≤ st.unassigned ∧
    ((out st s t).inserted = 0 → (out st s t).inserted_cost = 0)

/-- Claim C2: the round loop exits exactly when the maximum recorded gain
over all vehicle pairs is ≤ 0; a round that reinserts no job strictly
decreases the total cost (non-negative integer) by at least the applied
gain; and for every initial state the loop terminates: some finite fuel
reaches a state where no positive gain remains. -/
theorem run_round_loop_terminates (V : Nat)
    (gains : EngineState → Nat → Nat → Int)
    (out : EngineState → Nat → Nat → RoundOutcome)
    (hc : RoundContract V gains out) :
    (∀ st, engine_round V gains out st = none ↔
      ∀ s t, s < V → t < V → s ≠ t → gains st s t ≤ 0) ∧
    (∀ st st', engine_round V gains out st = some st' →
      (out st (find_best_gain V (gains st)).2.1
        (find_best_gain V (gains st)).2.2).inserted = 0 →
      st'.total_cost < st.total_cost) ∧
    (∀ st0, ∃ fuel st_final,
      engine_iter V gains out fuel st0 = some st_final ∧
      engine_round V gains out st_final = none) := by
  have hround_none : ∀ st, engine_round V gains out st = none ↔
      (find_best_gain V (gains st)).1 ≤ 0 := by
    intro st
    unfold engine_round
    by_cases h : 0 < (find_best_gain V (gains st)).1
    · simp [h, Int.not_le.mpr h]
    · simp [h, Int.not_lt.mp h]
  have hround_some : ∀ st st', engine_round V gains out st = some st' →
      0 < (find_best_gain V (gains st)).1 ∧
      st' = { total_cost := st.total_cost -
                (find_best_gain V (gains st)).1.toNat -
                (out st (find_best_gain V (gains st)).2.1
                  (find_best_gain V (gains st)).2.2).straighten_drop +
                (out st (find_best_gain V (gains st)).2.1
                  (find_best_gain V (gains st)).2.2).inserted_cost,
              unassigned := st.unassigned -
                (out st (find_best_gain V (gains st)).2.1
                  (find_best_gain V (gains st)).2.2).inserted } := by
    intro st st' h
    unfold engine_round at h
    by_cases hb : 0 < (find_best_gain V (gains st)).1
    · rw [if_pos hb] at h
      exact ⟨hb, (Option.some_injective _ h).symm⟩
    · rw [if_neg hb] at h
      exact absurd h (Option.noConfusion)
  refine ⟨?_, ?_, ?_⟩
  · intro st
    rw [hround_none st, find_best_gain_le_zero_iff]
  · intro st st' h hins
    obtain ⟨hb, hst'⟩ := hround_some st st' h
    obtain ⟨hcost, _, hnoins⟩ := hc st (find_best_gain V (gains st)).2.1
      (find_best_gain V (gains st)).2.2 hb
    have h0 := hnoins hins
    rw [hst']
    simp only []
    omega
  · have key : ∀ u : Nat, ∀ st : EngineState, st.unassigned = u →
        ∃ fuel st_final, engine_iter V gains out fuel st = some st_final ∧
          engine_round V gains out st_final = none := by
      intro u
      induction u using Nat.strong_induction_on with
      | _ u ihu =>
        have inner : ∀ c : Nat, ∀ st : EngineState, st.unassigned = u →
            st.total_cost = c →
            ∃ fuel st_final,
              engine_iter V gains out fuel st = some st_final ∧
              engine_round V gains out st_final = none := by
          intro c
          induction c using Nat.strong_induction_on with
          | _ c ihc =>
            intro st hu hcst
            cases hro : engine_round V gains out st with
            | none =>
              exact ⟨1, st, by simp [engine_iter, hro], hro⟩
            | some st' =>
              obtain ⟨hb, hst'⟩ := hround_some st st' hro
              obtain ⟨hcost, hinsle, hnoins⟩ :=
                hc st (find_best_gain V (gains st)).2.1
                  (find_best_gain V (gains st)).2.2 hb
              by_cases hins : (out st (find_best_gain V (gains st)).2.1
                  (find_best_gain V (gains st)).2.2).inserted = 0
              · have h0 := hnoins hins
                have hlt : st'.total_cost < c := by
                  rw [hst']
                  simp only []
                  omega
                have hueq : st'.unassigned = u := by
                  rw [hst']
                  simp only []
                  omega
                obtain ⟨fuel, stf, hiter, hexit⟩ :=
                  ihc st'.total_cost hlt st' hueq rfl
                exact ⟨fuel + 1, stf, by simp [engine_iter, hro, hiter],
                  hexit⟩
              · have hult : st'.unassigned < u := by
                  rw [hst']
                  simp only []
                  omega
                obtain ⟨fuel, stf, hiter, hexit⟩ :=
                  ihu st'.unassigned hult st' rfl
                exact ⟨fuel + 1, stf, by simp [engine_iter, hro, hiter],
                  hexit⟩
        intro st hu
        exact inner st.total_cost st hu rfl
    intro st0
    exact key st0.unassigned st0 rfl

theorem run_round_loop_terminates_witness :
    RoundContract 2 (fun _ _ _ => 0) (fun _ _ _ => ⟨0, 0, 0⟩) ∧
    ((∀ st, engine_round 2 (fun _ _ _ => 0) (fun _ _ _ => ⟨0, 0, 0⟩) st =
        none ↔
      ∀ s t, s < 2 → t < 2 → s ≠ t → (0 : Int) ≤ 0) ∧
    (∀ st st', engine_round 2 (fun _ _ _ => 0) (fun _ _ _ => ⟨0, 0, 0⟩) st =
        some st' →
      ((fun (_ : EngineState) (_ _ : Nat) => (⟨0, 0, 0⟩ : RoundOutcome)) st
        (find_best_gain 2 ((fun _ _ _ => 0) st)).2.1
        (find_best_gain 2 ((fun _ _ _ => 0) st)).2.2).inserted = 0 →
      st'.total_cost < st.total_cost) ∧
    (∀ st0, ∃ fuel st_final,
      engine_iter 2 (fun _ _ _ => 0) (fun _ _ _ => ⟨0, 0, 0⟩) fuel st0 =
        some st_final ∧
      engine_round 2 (fun _ _ _ => 0) (fun _ _ _ => ⟨0, 0, 0⟩) st_final =
        none)) :=
  ⟨fun _ _ _ h => absurd h (by
      show ¬ (0 : Int) < (find_best_gain 2 (fun _ _ => (0 : Int))).1
      decide),
   run_round_loop_terminates 2 (fun _ _ _ => 0) (fun _ _ _ => ⟨0, 0, 0⟩)
     (fun _ _ _ h => absurd h (by
       show ¬ (0 : Int) < (find_best_gain 2 (fun _ _ => (0 : Int))).1
       decide))⟩

/-! ### Job reinsertion: try_job_additions (C4, C5)

Translated from `try_job_additions` (local_search.cpp lines 35-143).  The
`routes` parameter is a list of vehicle/route indices — the loop reads
`_input._vehicles[v]` and `_tw_sol[v]` for each `v` in it — while the job
loop scans the whole `_sol_state.unassigned` set (in increasing order, as
`std::set` iteration does).  The external collaborators
(`vehicle_ok_with_job`, `tw_route::is_valid_addition_for_tw`,
`addition_cost`, `update_route_cost`; all outside the given sources) are
oracle fields of `LSInput`.  `gain_t` is a 64-bit signed integer whose
maximum serves as the +∞ sentinel; `best_cost` is a double initialised to
`std::numeric_limits<double>::max()`, modelled exactly over ℚ. -/

/-- `std::numeric_limits<gain_t>::max()` with `gain_t = int64_t`. -/
def gain_max : Int := 2 ^ 63 - 1

/-- `std::numeric_limits<double>::max() = (2^53 - 1) * 2^971`. -/
def double_max : ℚ := (2 ^ 53 - 1) * 2 ^ 971

/-- `smallest_idx`'s initial value (line 74): gain_t's max as a size_t. -/
def smallest_idx_init : Nat := 2 ^ 63 - 1

/-- External collaborators of `try_job_additions` (spec §6): per-job
amounts, per-vehicle capacities, the vehicle/job compatibility predicate,
the time-window insertion validity predicate of `tw_route`, the
addition-cost oracle and the route-cost oracle. -/
structure LSInput (D : Nat) where
  job_amount : Nat → Amount D
  capacity : Nat → Amount D
  vehicle_ok_with_job : Nat → Nat → Bool
  is_valid_addition_for_tw : Nat → List Nat → Nat → Nat → Bool
  addition_cost : Nat → List Nat → Nat → Nat → Int
  route_cost : Nat → List Nat → Int

/-- The solution state visible to `try_job_additions`: per-vehicle routes,
both amount caches, cached route costs and the unassigned set. -/
structure SolState (D : Nat) where
  routes : Nat → List Nat
  fwd_amounts : Nat → List (Amount D)
  bwd_amounts : Nat → List (Amount D)
  route_costs : Nat → Int
  unassigned : List Nat

/-- `_sol_state.total_amount(v)` (line 54). -/
def st_total_amount {D : Nat} (st : SolState D) (v : Nat) : Amount D :=
  total_amount (st.fwd_amounts v)

/-- The rank scan (lines 58-68): cheapest tw-valid addition cost over
ranks 0..route length and the first rank attaining it, starting from the
sentinel and rank 0. -/
def best_rank_fold {D : Nat} (E : LSInput D) (st : SolState D) (j v : Nat) :
    Int × Nat :=
  (List.range ((st.routes v).length + 1)).foldl
    (fun acc r =>
      if E.is_valid_addition_for_tw v (st.routes v) j r ∧
          E.addition_cost v (st.routes v) j r < acc.1 then
        (E.addition_cost v (st.routes v) j r, r)
      else acc)
    (gain_max, 0)

/-- `best_costs[i]` and `best_ranks[i]` for one candidate route (lines
51-70): the sentinel when the compatibility or capacity precondition
fails, otherwise the cheapest tw-valid addition. -/
def best_cost_rank {D : Nat} (E : LSInput D) (st : SolState D) (j v : Nat) :
    Int × Nat :=
  if E.vehicle_ok_with_job v j ∧
      st_total_amount st v + E.job_amount j ≤ E.capacity v then
    best_rank_fold E st j v
  else
    (gain_max, 0)

/-- One step of the two-smallest scan (lines 76-84), on state
(smallest, second_smallest, smallest_idx) and an (index, cost) pair. -/
def st2_step (acc : Int × Int × Nat) (ic : Nat × Int) : Int × Int × Nat :=
  if ic.2 < acc.1 then (ic.2, acc.1, ic.1)
  else if ic.2 < acc.2.1 then (acc.1, ic.2, acc.2.2)
  else acc

/-- The two-smallest scan over `best_costs` (lines 72-84), returning
(smallest, second_smallest, smallest_idx). -/
def smallest_two (costs : List Int) : Int × Int × Nat :=
  costs.enum.foldl st2_step (gain_max, gain_max, smallest_idx_init)

/-- `best_costs[i]` for candidate-route position `i` (sentinel when out of
range). -/
def cand_cost {D : Nat} (E : LSInput D) (st : SolState D)
    (routes_list : List Nat) (j i : Nat) : Int :=
  ((routes_list.map (fun v => best_cost_rank E st j v)).map Prod.fst).getD i
    gain_max

/-- `best_ranks[i]` for candidate-route position `i`. -/
def cand_rank {D : Nat} (E : LSInput D) (st : SolState D)
    (routes_list : List Nat) (j i : Nat) : Nat :=
  ((routes_list.map (fun v => best_cost_rank E st j v)).getD i
    (gain_max, 0)).2

/-- `regret_cost` for position `i` (lines 93-98): the second smallest when
`i` is the argmin position, the smallest otherwise. -/
def cand_regret {D : Nat} (E : LSInput D) (st : SolState D)
    (routes_list : List Nat) (j i : Nat) : Int :=
  let s2 := smallest_two
    ((routes_list.map (fun v => best_cost_rank E st j v)).map Prod.fst)
  if i = s2.2.2 then s2.2.1 else s2.1

/-- `eval` for position `i` (lines 100-101), in exact rational
arithmetic. -/
def cand_eval {D : Nat} (E : LSInput D) (st : SolState D)
    (routes_list : List Nat) (regret_coeff : ℚ) (j i : Nat) : ℚ :=
  (cand_cost E st routes_list j i : ℚ) -
    regret_coeff * (cand_regret E st routes_list j i : ℚ)

/-- The per-position selection step (lines 88-109): skip sentinel costs,
otherwise keep the strictly smaller `eval` with its (job, route, rank). -/
def route_step {D : Nat} (E : LSInput D) (st : SolState D)
    (routes_list : List Nat) (regret_coeff : ℚ) (j : Nat)
    (acc : ℚ × Nat × Nat × Nat) (i : Nat) : ℚ × Nat × Nat × Nat :=
  if cand_cost E st routes_list j i = gain_max then acc
  else if cand_eval E st routes_list regret_coeff j i < acc.1 then
    (cand_eval E st routes_list regret_coeff j i, j,
      routes_list.getD i 0, cand_rank E st routes_list j i)
  else acc

/-- The candidate-route loop for one unassigned job (lines 46-109). -/
def eval_routes_for_job {D : Nat} (E : LSInput D) (st : SolState D)
    (routes_list : List Nat) (regret_coeff : ℚ) (acc : ℚ × Nat × Nat × Nat)
    (j : Nat) : ℚ × Nat × Nat × Nat :=
  (List.range routes_list.length).foldl
    (route_step E st routes_list regret_coeff j) acc

/-- One do-while pass over all unassigned jobs (lines 40-110), threading
the global (best_cost, best_job, best_route, best_rank) accumulator from
its initial sentinel values. -/
def select_addition {D : Nat} (E : LSInput D) (st : SolState D)
    (routes_list : List Nat) (regret_coeff : ℚ) : ℚ × Nat × Nat × Nat :=
  st.unassigned.foldl (eval_routes_for_job E st routes_list regret_coeff)
    (double_max, 0, 0, 0)

/-- The insertion bookkeeping (lines 114-140): insert the job, update both
amount caches incrementally, recompute the route cost, erase the job from
unassigned. -/
def apply_addition {D : Nat} (E : LSInput D) (st : SolState D) (j v r : Nat) :
    SolState D :=
  let new_route := (st.routes v).take r ++ j :: (st.routes v).drop r
  let new_fwd := add_update_fwd (st.fwd_amounts v) r (E.job_amount j)
  { routes := fun w => if w = v then new_route else st.routes w,
    fwd_amounts := fun w => if w = v then new_fwd else st.fwd_amounts w,
    bwd_amounts := fun w =>
      if w = v then add_update_bwd (st.bwd_amounts v) new_fwd r
      else st.bwd_amounts w,
    route_costs := fun w =>
      if w = v then E.route_cost v new_route else st.route_costs w,
    unassigned := st.unassigned.erase j }

/-- One pass (lines 39-141): `none` when `best_cost` kept its sentinel
(`job_added == false`), otherwise the state after the chosen insertion. -/
def try_job_additions_step {D : Nat} (E : LSInput D) (st : SolState D)
    (routes_list : List Nat) (regret_coeff : ℚ) : Option (SolState D) :=
  let sel := select_addition E st routes_list regret_coeff
  if sel.1 < double_max then
    some (apply_addition E st sel.2.1 sel.2.2.1 sel.2.2.2)
  else
    none

def try_job_additions_go {D : Nat} (E : LSInput D) (routes_list : List Nat)
    (regret_coeff : ℚ) : Nat → SolState D → SolState D
  | 0, st => st
  | fuel + 1, st =>
    match try_job_additions_step E st routes_list regret_coeff with
    | none => st
    | some st' => try_job_additions_go E routes_list regret_coeff fuel st'

/-- `try_job_additions` (lines 35-143): repeat passes until none inserts.
`|unassigned|` passes always suffice because each pass erases one
unassigned job. -/
def try_job_additions {D : Nat} (E : LSInput D) (routes_list : List Nat)
    (regret_coeff : ℚ) (st : SolState D) : SolState D :=
  try_job_additions_go E routes_list regret_coeff st.unassigned.length st

theorem brf_foldl_mono {D : Nat} (E : LSInput D) (st : SolState D)
    (j v : Nat) :
    ∀ (l : List Nat) (acc : Int × Nat),
      (l.foldl (fun acc r =>
        if E.is_valid_addition_for_tw v (st.routes v) j r ∧
            E.addition_cost v (st.routes v) j r < acc.1 then
          (E.addition_cost v (st.routes v) j r, r)
        else acc) acc).1 ≤ acc.1 := by
  intro l
  induction l with
  | nil => intro acc; exact le_refl _
  | cons r rest ih =>
    intro acc
    simp only [List.foldl_cons]
    by_cases h : E.is_valid_addition_for_tw v (st.routes v) j r ∧
        E.addition_cost v (st.routes v) j r < acc.1
    · rw [if_pos h]
      exact le_trans (ih _) (le_of_lt h.2)
    · rw [if_neg h]
      exact ih acc

theorem brf_foldl_le {D : Nat} (E : LSInput D) (st : SolState D)
    (j v : Nat) :
    ∀ (l : List Nat) (acc : Int × Nat) (r : Nat), r ∈ l →
      E.is_valid_addition_for_tw v (st.routes v) j r = true →
      (l.foldl (fun acc r =>
        if E.is_valid_addition_for_tw v (st.routes v) j r ∧
            E.addition_cost v (st.routes v) j r < acc.1 then
          (E.addition_cost v (st.routes v) j r, r)
        else acc) acc).1 ≤ E.addition_cost v (st.routes v) j r := by
  intro l
  induction l with
  | nil => intro acc r hr; exact absurd hr (List.not_mem_nil r)
  | cons q rest ih =>
    intro acc r hr hvalid
    simp only [List.foldl_cons]
    rcases List.mem_cons.mp hr with hq | hrest
    · subst hq
      by_cases h : E.is_valid_addition_for_tw v (st.routes v) j r ∧
          E.addition_cost v (st.routes v) j r < acc.1
      · rw [if_pos h]
        exact brf_foldl_mono E st j v rest _
      · rw [if_neg h]
        have hge : acc.1 ≤ E.addition_cost v (st.routes v) j r := by
          rcases not_and_or.mp h with hnv | hnlt
          · exact absurd hvalid hnv
          · exact le_of_not_lt hnlt
        exact le_trans (brf_foldl_mono E st j v rest acc) hge
    · exact ih _ r hrest hvalid

theorem brf_foldl_attained {D : Nat} (E : LSInput D) (st : SolState D)
    (j v : Nat) :
    ∀ (l : List Nat) (acc : Int × Nat),
      (l.foldl (fun acc r =>
        if E.is_valid_addition_for_tw v (st.routes v) j r ∧
            E.addition_cost v (st.routes v) j r < acc.1 then
          (E.addition_cost v (st.routes v) j r, r)
        else acc) acc) = acc ∨
      ((l.foldl (fun acc r =>
          if E.is_valid_addition_for_tw v (st.routes v) j r ∧
              E.addition_cost v (st.routes v) j r < acc.1 then
            (E.addition_cost v (st.routes v) j r, r)
          else acc) acc).1 < acc.1 ∧
        ∃ r ∈ l, E.is_valid_addition_for_tw v (st.routes v) j r = true ∧
          (l.foldl (fun acc r =>
            if E.is_valid_addition_for_tw v (st.routes v) j r ∧
                E.addition_cost v (st.routes v) j r < acc.1 then
              (E.addition_cost v (st.routes v) j r, r)
            else acc) acc) = (E.addition_cost v (st.routes v) j r, r)) := by
  intro l
  induction l with
  | nil => intro acc; exact Or.inl rfl
  | cons q rest ih =>
    intro acc
    simp only [List.foldl_cons]
    by_cases h : E.is_valid_addition_for_tw v (st.routes v) j q ∧
        E.addition_cost v (st.routes v) j q < acc.1
    · rw [if_pos h]
      rcases ih (E.addition_cost v (st.routes v) j q, q) with
        heq | ⟨hlt, r, hr, hv, heq⟩
      · refine Or.inr ⟨?_, q, List.mem_cons_self q rest, h.1, heq⟩
        rw [heq]
        exact h.2
      · refine Or.inr ⟨lt_trans hlt h.2, r, List.mem_cons_of_mem q hr, hv,
          heq⟩
    · rw [if_neg h]
      rcases ih acc with heq | ⟨hlt, r, hr, hv, heq⟩
      · exact Or.inl heq
      · exact Or.inr ⟨hlt, r, List.mem_cons_of_mem q hr, hv, heq⟩

/-- `best_cost_rank` is at most the sentinel. -/
theorem best_cost_rank_le_max {D : Nat} (E : LSInput D) (st : SolState D)
    (j v : Nat) : (best_cost_rank E st j v).1 ≤ gain_max := by
  unfold best_cost_rank
  by_cases h : E.vehicle_ok_with_job v j = true ∧
      st_total_amount st v + E.job_amount j ≤ E.capacity v
  · rw [if_pos h]
    exact brf_foldl_mono E st j v _ _
  · rw [if_neg h]

/-- When the compatibility or capacity precondition fails, the cost is the
sentinel. -/
theorem best_cost_rank_incompatible {D : Nat} (E : LSInput D)
    (st : SolState D) (j v : Nat)
    (h : ¬ (E.vehicle_ok_with_job v j = true ∧
      st_total_amount st v + E.job_amount j ≤ E.capacity v)) :
    best_cost_rank E st j v = (gain_max, 0) := by
  unfold best_cost_rank
  rw [if_neg h]

/-- The recorded cost is a lower bound on every tw-valid addition cost. -/
theorem best_cost_rank_le {D : Nat} (E : LSInput D) (st : SolState D)
    (j v : Nat)
    (hcompat : E.vehicle_ok_with_job v j = true ∧
      st_total_amount st v + E.job_amount j ≤ E.capacity v)
    (r : Nat) (hr : r < (st.routes v).length + 1)
    (hvalid : E.is_valid_addition_for_tw v (st.routes v) j r = true) :
    (best_cost_rank E st j v).1 ≤ E.addition_cost v (st.routes v) j r := by
  unfold best_cost_rank
  rw [if_pos hcompat]
  exact brf_foldl_le E st j v _ _ r (List.mem_range.mpr hr) hvalid

/-- The recorded cost is the sentinel or is attained at the recorded rank,
which is then a tw-valid in-range rank. -/
theorem best_cost_rank_attained {D : Nat} (E : LSInput D) (st : SolState D)
    (j v : Nat) :
    (best_cost_rank E st j v).1 = gain_max ∨
    ((best_cost_rank E st j v).1 < gain_max ∧
      (E.vehicle_ok_with_job v j = true ∧
        st_total_amount st v + E.job_amount j ≤ E.capacity v) ∧
      (best_cost_rank E st j v).2 < (st.routes v).length + 1 ∧
      E.is_valid_addition_for_tw v (st.routes v) j
        (best_cost_rank E st j v).2 = true ∧
      (best_cost_rank E st j v).1 =
        E.addition_cost v (st.routes v) j (best_cost_rank E st j v).2) := by
  unfold best_cost_rank
  by_cases h : E.vehicle_ok_with_job v j = true ∧
      st_total_amount st v + E.job_amount j ≤ E.capacity v
  · rw [if_pos h]
    unfold best_rank_fold
    rcases brf_foldl_attained E st j v
        (List.range ((st.routes v).length + 1)) (gain_max, 0) with
      heq | ⟨hlt, r, hr, hv, heq⟩
    · rw [heq]
      exact Or.inl rfl
    · rw [heq]
      rw [heq] at hlt
      exact Or.inr ⟨hlt, h, List.mem_range.mp hr, hv, rfl⟩
  · rw [if_neg h]
    exact Or.inl rfl

theorem rs_foldl_mono {D : Nat} (E : LSInput D) (st : SolState D)
    (R : List Nat) (c : ℚ) (j : Nat) :
    ∀ (l : List Nat) (acc : ℚ × Nat × Nat × Nat),
      (l.foldl (route_step E st R c j) acc).1 ≤ acc.1 := by
  intro l
  induction l with
  | nil => intro acc; exact le_refl _
  | cons i rest ih =>
    intro acc
    simp only [List.foldl_cons]
    unfold route_step
    by_cases h1 : cand_cost E st R j i = gain_max
    · rw [if_pos h1]
      exact ih acc
    · rw [if_neg h1]
      by_cases h2 : cand_eval E st R c j i < acc.1
      · rw [if_pos h2]
        exact le_trans (ih _) (le_of_lt h2)
      · rw [if_neg h2]
        exact ih acc

theorem rs_foldl_min {D : Nat} (E : LSInput D) (st : SolState D)
    (R : List Nat) (c : ℚ) (j : Nat) :
    ∀ (l : List Nat) (acc : ℚ × Nat × Nat × Nat) (i : Nat), i ∈ l →
      cand_cost E st R j i ≠ gain_max →
      (l.foldl (route_step E st R c j) acc).1 ≤ cand_eval E st R c j i := by
  intro l
  induction l with
  | nil => intro acc i hi; exact absurd hi (List.not_mem_nil i)
  | cons q rest ih =>
    intro acc i hi hcost
    simp only [List.foldl_cons]
    rcases List.mem_cons.mp hi with hq | hrest
    · subst hq
      unfold route_step
      rw [if_neg hcost]
      by_cases h2 : cand_eval E st R c j i < acc.1
      · rw [if_pos h2]
        exact rs_foldl_mono E st R c j rest _
      · rw [if_neg h2]
        exact le_trans (rs_foldl_mono E st R c j rest acc) (le_of_not_lt h2)
    · exact ih _ i hrest hcost

theorem rs_foldl_attained {D : Nat} (E : LSInput D) (st : SolState D)
    (R : List Nat) (c : ℚ) (j : Nat) :
    ∀ (l : List Nat) (acc : ℚ × Nat × Nat × Nat),
      (l.foldl (route_step E st R c j) acc) = acc ∨
      ((l.foldl (route_step E st R c j) acc).1 < acc.1 ∧
        ∃ i ∈ l, cand_cost E st R j i ≠ gain_max ∧
          (l.foldl (route_step E st R c j) acc) =
            (cand_eval E st R c j i, j, R.getD i 0,
              cand_rank E st R j i)) := by
  intro l
  induction l with
  | nil => intro acc; exact Or.inl rfl
  | cons q rest ih =>
    intro acc
    simp only [List.foldl_cons]
    unfold route_step
    by_cases h1 : cand_cost E st R j q = gain_max
    · rw [if_pos h1]
      rcases ih acc with heq | ⟨hlt, i, hi, hc, heq⟩
      · exact Or.inl heq
      · exact Or.inr ⟨hlt, i, List.mem_cons_of_mem q hi, hc, heq⟩
    · rw [if_neg h1]
      by_cases h2 : cand_eval E st R c j q < acc.1
      · rw [if_pos h2]
        rcases ih (cand_eval E st R c j q, j, R.getD q 0,
            cand_rank E st R j q) with heq | ⟨hlt, i, hi, hc, heq⟩
        · refine Or.inr ⟨?_, q, List.mem_cons_self q rest, h1, heq⟩
          exact lt_of_le_of_lt (le_of_eq (congrArg Prod.fst heq)) h2
        · exact Or.inr ⟨lt_trans hlt h2, i, List.mem_cons_of_mem q hi, hc,
            heq⟩
      · rw [if_neg h2]
        rcases ih acc with heq | ⟨hlt, i, hi, hc, heq⟩
        · exact Or.inl heq
        · exact Or.inr ⟨hlt, i, List.mem_cons_of_mem q hi, hc, heq⟩

theorem os_foldl_mono {D : Nat} (E : LSInput D) (st : SolState D)
    (R : List Nat) (c : ℚ) :
    ∀ (js : List Nat) (acc : ℚ × Nat × Nat × Nat),
      (js.foldl (eval_routes_for_job E st R c) acc).1 ≤ acc.1 := by
  intro js
  induction js with
  | nil => intro acc; exact le_refl _
  | cons j rest ih =>
    intro acc
    simp only [List.foldl_cons]
    exact le_trans (ih _) (rs_foldl_mono E st R c j _ acc)

theorem os_foldl_min {D : Nat} (E : LSInput D) (st : SolState D)
    (R : List Nat) (c : ℚ) :
    ∀ (js : List Nat) (acc : ℚ × Nat × Nat × Nat) (j i : Nat), j ∈ js →
      i < R.length → cand_cost E st R j i ≠ gain_max →
      (js.foldl (eval_routes_for_job E st R c) acc).1 ≤
        cand_eval E st R c j i := by
  intro js
  induction js with
  | nil => intro acc j i hj; exact absurd hj (List.not_mem_nil j)
  | cons q rest ih =>
    intro acc j i hj hi hc
    simp only [List.foldl_cons]
    rcases List.mem_cons.mp hj with hq | hrest
    · subst hq
      refine le_trans (os_foldl_mono E st R c rest _) ?_
      exact rs_foldl_min E st R c j _ acc i (List.mem_range.mpr hi) hc
    · exact ih _ j i hrest hi hc

theorem os_foldl_attained {D : Nat} (E : LSInput D) (st : SolState D)
    (R : List Nat) (c : ℚ) :
    ∀ (js : List Nat) (acc : ℚ × Nat × Nat × Nat),
      (js.foldl (eval_routes_for_job E st R c) acc) = acc ∨
      ((js.foldl (eval_routes_for_job E st R c) acc).1 < acc.1 ∧
        ∃ j ∈ js, ∃ i, i < R.length ∧ cand_cost E st R j i ≠ gain_max ∧
          (js.foldl (eval_routes_for_job E st R c) acc) =
            (cand_eval E st R c j i, j, R.getD i 0,
              cand_rank E st R j i)) := by
  intro js
  induction js with
  | nil => intro acc; exact Or.inl rfl
  | cons q rest ih =>
    intro acc
    simp only [List.foldl_cons]
    rcases rs_foldl_attained E st R c q (List.range R.length) acc with
      heq1 | ⟨hlt1, i, hi, hc, heq1⟩
    · rcases ih (eval_routes_for_job E st R c acc q) with
        heq | ⟨hlt, j, hj, i', hi', hc', heq⟩
      · exact Or.inl (heq.trans heq1)
      · refine Or.inr ⟨?_, j, List.mem_cons_of_mem q hj, i', hi', hc', heq⟩
        exact lt_of_lt_of_le hlt (le_of_eq (congrArg Prod.fst heq1))
    · rcases ih (eval_routes_for_job E st R c acc q) with
        heq | ⟨hlt, j, hj, i', hi', hc', heq⟩
      · refine Or.inr ⟨?_, q, List.mem_cons_self q rest, i,
          List.mem_range.mp hi, hc, heq.trans heq1⟩
        exact lt_of_le_of_lt (le_of_eq (congrArg Prod.fst heq)) hlt1
      · exact Or.inr ⟨lt_trans hlt hlt1, j, List.mem_cons_of_mem q hj,
          i', hi', hc', heq⟩

/-- Each of the two smallest values tracked by the scan is either the
sentinel it started from or one of the scanned values. -/
theorem st2_step_lt (acc : Int × Int × Nat) (ic : Nat × Int)
    (h : ic.2 < acc.1) : st2_step acc ic = (ic.2, acc.1, ic.1) := by
  unfold st2_step
  rw [if_pos h]

theorem st2_step_mid (acc : Int × Int × Nat) (ic : Nat × Int)
    (h1 : ¬ ic.2 < acc.1) (h2 : ic.2 < acc.2.1) :
    st2_step acc ic = (acc.1, ic.2, acc.2.2) := by
  unfold st2_step
  rw [if_neg h1, if_pos h2]

theorem st2_step_keep (acc : Int × Int × Nat) (ic : Nat × Int)
    (h1 : ¬ ic.2 < acc.1) (h2 : ¬ ic.2 < acc.2.1) :
    st2_step acc ic = acc := by
  unfold st2_step
  rw [if_neg h1, if_neg h2]

theorem st2_foldl_mem :
    ∀ (pl : List (Nat × Int)) (acc : Int × Int × Nat),
      ((pl.foldl st2_step acc).1 = acc.1 ∨
        (pl.foldl st2_step acc).1 ∈ pl.map Prod.snd) ∧
      ((pl.foldl st2_step acc).2.1 = acc.1 ∨
        (pl.foldl st2_step acc).2.1 = acc.2.1 ∨
        (pl.foldl st2_step acc).2.1 ∈ pl.map Prod.snd) := by
  intro pl
  induction pl with
  | nil => intro acc; exact ⟨Or.inl rfl, Or.inr (Or.inl rfl)⟩
  | cons q rest ih =>
    intro acc
    simp only [List.foldl_cons, List.map_cons]
    by_cases h1 : q.2 < acc.1
    · rw [st2_step_lt acc q h1]
      rcases ih (q.2, acc.1, q.1) with ⟨ha, hb⟩
      constructor
      · rcases ha with ha | ha
        · right
          rw [ha]
          exact List.mem_cons_self _ _
        · exact Or.inr (List.mem_cons_of_mem q.2 ha)
      · rcases hb with hb | hb | hb
        · right; right
          rw [hb]
          exact List.mem_cons_self _ _
        · exact Or.inl hb
        · exact Or.inr (Or.inr (List.mem_cons_of_mem q.2 hb))
    · by_cases h2 : q.2 < acc.2.1
      · rw [st2_step_mid acc q h1 h2]
        rcases ih (acc.1, q.2, acc.2.2) with ⟨ha, hb⟩
        constructor
        · rcases ha with ha | ha
          · exact Or.inl ha
          · exact Or.inr (List.mem_cons_of_mem q.2 ha)
        · rcases hb with hb | hb | hb
          · exact Or.inl hb
          · right; right
            rw [hb]
            exact List.mem_cons_self _ _
          · exact Or.inr (Or.inr (List.mem_cons_of_mem q.2 hb))
      · rw [st2_step_keep acc q h1 h2]
        rcases ih acc with ⟨ha, hb⟩
        constructor
        · rcases ha with ha | ha
          · exact Or.inl ha
          · exact Or.inr (List.mem_cons_of_mem q.2 ha)
        · rcases hb with hb | hb | hb
          · exact Or.inl hb
          · exact Or.inr (Or.inl hb)
          · exact Or.inr (Or.inr (List.mem_cons_of_mem q.2 hb))

theorem smallest_two_fst_mem (costs : List Int) :
    (smallest_two costs).1 = gain_max ∨ (smallest_two costs).1 ∈ costs := by
  have h := (st2_foldl_mem costs.enum (gain_max, gain_max,
    smallest_idx_init)).1
  rw [List.enum_map_snd] at h
  exact h

theorem smallest_two_snd_mem (costs : List Int) :
    (smallest_two costs).2.1 = gain_max ∨
      (smallest_two costs).2.1 ∈ costs := by
  have h := (st2_foldl_mem costs.enum (gain_max, gain_max,
    smallest_idx_init)).2
  rw [List.enum_map_snd] at h
  rcases h with h | h | h
  · exact Or.inl h
  · exact Or.inl h
  · exact Or.inr h

theorem st2_aux :
    ∀ (pl : List (Nat × Int)) (acc : Int × Int × Nat),
      (pl.map Prod.fst).Nodup →
      (∀ p ∈ pl, p.1 ≠ acc.2.2) →
      acc.1 ≤ acc.2.1 →
      (pl.foldl st2_step acc).1 ≤ acc.1 ∧
      (pl.foldl st2_step acc).2.1 ≤ acc.2.1 ∧
      (pl.foldl st2_step acc).1 ≤ (pl.foldl st2_step acc).2.1 ∧
      (∀ p ∈ pl, (pl.foldl st2_step acc).1 ≤ p.2) ∧
      (∀ p ∈ pl, p.1 ≠ (pl.foldl st2_step acc).2.2 →
        (pl.foldl st2_step acc).2.1 ≤ p.2) ∧
      ((pl.foldl st2_step acc).2.2 ≠ acc.2.2 →
        (pl.foldl st2_step acc).2.1 ≤ acc.1) ∧
      (((pl.foldl st2_step acc).2.2 = acc.2.2 ∧
          (pl.foldl st2_step acc).1 = acc.1) ∨
        ∃ p ∈ pl, p.1 = (pl.foldl st2_step acc).2.2 ∧
          p.2 = (pl.foldl st2_step acc).1) := by
  intro pl
  induction pl with
  | nil =>
    intro acc _ _ ha
    refine ⟨le_refl _, le_refl _, ha, ?_, ?_, ?_, Or.inl ⟨rfl, rfl⟩⟩
    · intro p hp; exact absurd hp (List.not_mem_nil p)
    · intro p hp; exact absurd hp (List.not_mem_nil p)
    · intro h; exact absurd rfl h
  | cons q rest ih =>
    intro acc hnodup h2 ha
    rw [List.map_cons, List.nodup_cons] at hnodup
    have h2q : q.1 ≠ acc.2.2 := h2 q (List.mem_cons_self q rest)
    have h2rest : ∀ p ∈ rest, p.1 ≠ acc.2.2 :=
      fun p hp => h2 p (List.mem_cons_of_mem q hp)
    simp only [List.foldl_cons]
    by_cases h1 : q.2 < acc.1
    · rw [st2_step_lt acc q h1]
      have h2' : ∀ p ∈ rest, p.1 ≠ (q.2, acc.1, q.1).2.2 := by
        intro p hp hcontra
        have hq1 : q.1 = p.1 := by
          rw [hcontra]
        exact hnodup.1 (hq1 ▸ List.mem_map_of_mem Prod.fst hp)
      obtain ⟨m1, m2, a', call, bsec, vv, att⟩ :=
        ih (q.2, acc.1, q.1) hnodup.2 h2' (le_of_lt h1)
      refine ⟨le_trans m1 (le_of_lt h1), le_trans m2 ha, a', ?_, ?_, ?_, ?_⟩
      · intro p hp
        rcases List.mem_cons.mp hp with hpq | hpr
        · subst hpq; exact m1
        · exact call p hpr
      · intro p hp hne
        rcases List.mem_cons.mp hp with hpq | hpr
        · subst hpq
          exact vv (Ne.symm hne)
        · exact bsec p hpr hne
      · intro _
        exact m2
      · rcases att with ⟨hsi, hs⟩ | ⟨p, hp, hpi, hpv⟩
        · exact Or.inr ⟨q, List.mem_cons_self q rest, hsi.symm ▸ rfl,
            hs.symm ▸ rfl⟩
        · exact Or.inr ⟨p, List.mem_cons_of_mem q hp, hpi, hpv⟩
    · by_cases hm : q.2 < acc.2.1
      · rw [st2_step_mid acc q h1 hm]
        have haq : acc.1 ≤ q.2 := le_of_not_lt h1
        obtain ⟨m1, m2, a', call, bsec, vv, att⟩ :=
          ih (acc.1, q.2, acc.2.2) hnodup.2 h2rest haq
        refine ⟨m1, le_trans m2 (le_of_lt hm), a', ?_, ?_, ?_, ?_⟩
        · intro p hp
          rcases List.mem_cons.mp hp with hpq | hpr
          · subst hpq; exact le_trans m1 haq
          · exact call p hpr
        · intro p hp hne
          rcases List.mem_cons.mp hp with hpq | hpr
          · subst hpq; exact m2
          · exact bsec p hpr hne
        · intro h
          exact le_trans (vv h) (le_refl _)
        · rcases att with ⟨hsi, hs⟩ | ⟨p, hp, hpi, hpv⟩
          · exact Or.inl ⟨hsi, hs⟩
          · exact Or.inr ⟨p, List.mem_cons_of_mem q hp, hpi, hpv⟩
      · rw [st2_step_keep acc q h1 hm]
        obtain ⟨m1, m2, a', call, bsec, vv, att⟩ :=
          ih acc hnodup.2 h2rest ha
        refine ⟨m1, m2, a', ?_, ?_, vv, ?_⟩
        · intro p hp
          rcases List.mem_cons.mp hp with hpq | hpr
          · subst hpq; exact le_trans m1 (le_of_not_lt h1)
          · exact call p hpr
        · intro p hp hne
          rcases List.mem_cons.mp hp with hpq | hpr
          · subst hpq; exact le_trans m2 (le_of_not_lt hm)
          · exact bsec p hpr hne
        · rcases att with ⟨hsi, hs⟩ | ⟨p, hp, hpi, hpv⟩
          · exact Or.inl ⟨hsi, hs⟩
          · exact Or.inr ⟨p, List.mem_cons_of_mem q hp, hpi, hpv⟩

/-- The two-smallest scan computes what its names promise (lines 72-84):
`smallest` is a lower bound on every scanned cost and is either the
sentinel (with `smallest_idx` untouched) or attained at position
`smallest_idx`; `second_smallest` is at least `smallest` and bounds every
cost at a position other than `smallest_idx`.  The hypothesis keeps the
positions clear of the size_t sentinel, as any in-memory array is. -/
theorem smallest_two_spec (costs : List Int)
    (hlen : costs.length ≤ smallest_idx_init) :
    (∀ p ∈ costs.enum, (smallest_two costs).1 ≤ p.2) ∧
    (smallest_two costs).1 ≤ (smallest_two costs).2.1 ∧
    (∀ p ∈ costs.enum, p.1 ≠ (smallest_two costs).2.2 →
      (smallest_two costs).2.1 ≤ p.2) ∧
    (((smallest_two costs).2.2 = smallest_idx_init ∧
        (smallest_two costs).1 = gain_max) ∨
      ∃ p ∈ costs.enum, p.1 = (smallest_two costs).2.2 ∧
        p.2 = (smallest_two costs).1) := by
  have hnodup : (costs.enum.map Prod.fst).Nodup := by
    rw [List.enum_map_fst]
    exact List.nodup_range _
  have h2 : ∀ p ∈ costs.enum,
      p.1 ≠ (gain_max, gain_max, smallest_idx_init).2.2 := by
    intro p hp
    have hlt : p.1 < costs.length := by
      have : p.1 ∈ costs.enum.map Prod.fst := List.mem_map_of_mem Prod.fst hp
      rw [List.enum_map_fst, List.mem_range] at this
      exact this
    show p.1 ≠ smallest_idx_init
    omega
  obtain ⟨_, _, a', call, bsec, _, att⟩ :=
    st2_aux costs.enum (gain_max, gain_max, smallest_idx_init) hnodup h2
      (le_refl _)
  exact ⟨call, a', bsec, att⟩

/-- Lower bound of the addition-cost oracle (gain_t is a 64-bit signed
integer). -/
def CostBounded {D : Nat} (E : LSInput D) : Prop :=
  ∀ v route j r, -gain_max ≤ E.addition_cost v route j r

theorem best_cost_rank_lb {D : Nat} (E : LSInput D) (st : SolState D)
    (hE : CostBounded E) (j v : Nat) :
    -gain_max ≤ (best_cost_rank E st j v).1 := by
  rcases best_cost_rank_attained E st j v with h | ⟨_, _, _, _, h⟩
  · rw [h]
    unfold gain_max
    norm_num
  · rw [h]
    exact hE v (st.routes v) j _

theorem cand_cost_bounds {D : Nat} (E : LSInput D) (st : SolState D)
    (hE : CostBounded E) (R : List Nat) (j i : Nat) :
    -gain_max ≤ cand_cost E st R j i ∧ cand_cost E st R j i ≤ gain_max := by
  unfold cand_cost
  by_cases hi : i < ((R.map (fun v => best_cost_rank E st j v)).map
      Prod.fst).length
  · rw [List.getD_eq_getElem?_getD, List.getElem?_eq_getElem hi,
      Option.getD_some]
    have hmem := List.getElem_mem hi
    rw [List.mem_map] at hmem
    obtain ⟨p, hp, hpe⟩ := hmem
    rw [List.mem_map] at hp
    obtain ⟨v, _, hv⟩ := hp
    rw [← hpe, ← hv]
    exact ⟨best_cost_rank_lb E st hE j v, best_cost_rank_le_max E st j v⟩
  · rw [List.getD_eq_getElem?_getD, List.getElem?_eq_none (by omega),
      Option.getD_none]
    constructor
    · unfold gain_max; norm_num
    · exact le_refl _

theorem cand_regret_bounds {D : Nat} (E : LSInput D) (st : SolState D)
    (hE : CostBounded E) (R : List Nat) (j i : Nat) :
    -gain_max ≤ cand_regret E st R j i ∧
      cand_regret E st R j i ≤ gain_max := by
  unfold cand_regret
  simp only []
  have hco : ∀ x ∈ (R.map (fun v => best_cost_rank E st j v)).map Prod.fst,
      -gain_max ≤ x ∧ x ≤ gain_max := by
    intro x hx
    rw [List.mem_map] at hx
    obtain ⟨p, hp, hpe⟩ := hx
    rw [List.mem_map] at hp
    obtain ⟨v, _, hv⟩ := hp
    rw [← hpe, ← hv]
    exact ⟨best_cost_rank_lb E st hE j v, best_cost_rank_le_max E st j v⟩
  split
  · rcases smallest_two_snd_mem
        ((R.map (fun v => best_cost_rank E st j v)).map Prod.fst) with
      h | h
    · rw [h]
      refine ⟨by unfold gain_max; norm_num, le_refl _⟩
    · exact hco _ h
  · rcases smallest_two_fst_mem
        ((R.map (fun v => best_cost_rank E st j v)).map Prod.fst) with
      h | h
    · rw [h]
      refine ⟨by unfold gain_max; norm_num, le_refl _⟩
    · exact hco _ h

theorem cand_eval_lt_double_max {D : Nat} (E : LSInput D) (st : SolState D)
    (hE : CostBounded E) (R : List Nat) (c : ℚ) (hc0 : 0 ≤ c)
    (hcb : c ≤ (gain_max : ℚ)) (j i : Nat) :
    cand_eval E st R c j i < double_max := by
  obtain ⟨hclb, hcub⟩ := cand_cost_bounds E st hE R j i
  obtain ⟨hrlb, hrub⟩ := cand_regret_bounds E st hE R j i
  unfold cand_eval
  have h1 : (cand_cost E st R j i : ℚ) ≤ (gain_max : ℚ) := by
    exact_mod_cast hcub
  have h2 : -(gain_max : ℚ) ≤ (cand_regret E st R j i : ℚ) := by
    exact_mod_cast hrlb
  have h3 : c * (cand_regret E st R j i : ℚ) ≥ c * (-(gain_max : ℚ)) :=
    mul_le_mul_of_nonneg_left h2 hc0
  have h4 : (cand_cost E st R j i : ℚ) -
      c * (cand_regret E st R j i : ℚ) ≤
      (gain_max : ℚ) + c * (gain_max : ℚ) := by
    have := neg_le_neg h3
    simp only [mul_neg, neg_neg] at this
    linarith
  refine lt_of_le_of_lt h4 ?_
  have h5 : c * (gain_max : ℚ) ≤ (gain_max : ℚ) * (gain_max : ℚ) := by
    apply mul_le_mul_of_nonneg_right hcb
    unfold gain_max
    norm_num
  refine lt_of_le_of_lt (add_le_add_left h5 _) ?_
  unfold gain_max double_max
  norm_num

theorem select_addition_min {D : Nat} (E : LSInput D) (st : SolState D)
    (R : List Nat) (c : ℚ) (j i : Nat) (hj : j ∈ st.unassigned)
    (hi : i < R.length) (hc : cand_cost E st R j i ≠ gain_max) :
    (select_addition E st R c).1 ≤ cand_eval E st R c j i :=
  os_foldl_min E st R c st.unassigned (double_max, 0, 0, 0) j i hj hi hc

theorem select_addition_attained {D : Nat} (E : LSInput D) (st : SolState D)
    (R : List Nat) (c : ℚ) :
    select_addition E st R c = (double_max, 0, 0, 0) ∨
      ((select_addition E st R c).1 < double_max ∧
        ∃ j ∈ st.unassigned, ∃ i, i < R.length ∧
          cand_cost E st R j i ≠ gain_max ∧
          select_addition E st R c =
            (cand_eval E st R c j i, j, R.getD i 0,
              cand_rank E st R j i)) :=
  os_foldl_attained E st R c st.unassigned (double_max, 0, 0, 0)

theorem select_addition_finite_iff {D : Nat} (E : LSInput D)
    (st : SolState D) (R : List Nat) (c : ℚ) (hE : CostBounded E)
    (hc0 : 0 ≤ c) (hcb : c ≤ (gain_max : ℚ)) :
    (select_addition E st R c).1 < double_max ↔
      ∃ j ∈ st.unassigned, ∃ i, i < R.length ∧
        cand_cost E st R j i ≠ gain_max := by
  constructor
  · intro h
    rcases select_addition_attained E st R c with heq | ⟨_, j, hj, i, hi, hc, _⟩
    · rw [heq] at h
      exact absurd h (lt_irrefl _)
    · exact ⟨j, hj, i, hi, hc⟩
  · rintro ⟨j, hj, i, hi, hc⟩
    refine lt_of_le_of_lt (select_addition_min E st R c j i hj hi hc) ?_
    exact cand_eval_lt_double_max E st hE R c hc0 hcb j i

theorem step_none_iff {D : Nat} (E : LSInput D) (st : SolState D)
    (R : List Nat) (c : ℚ) (hE : CostBounded E) (hc0 : 0 ≤ c)
    (hcb : c ≤ (gain_max : ℚ)) :
    try_job_additions_step E st R c = none ↔
      ∀ j ∈ st.unassigned, ∀ i, i < R.length →
        cand_cost E st R j i = gain_max := by
  unfold try_job_additions_step
  by_cases h : (select_addition E st R c).1 < double_max
  · rw [if_pos h]
    simp only [false_iff, reduceCtorEq]
    intro hall
    obtain ⟨j, hj, i, hi, hc⟩ :=
      (select_addition_finite_iff E st R c hE hc0 hcb).mp h
    exact hc (hall j hj i hi)
  · rw [if_neg h]
    simp only [true_iff]
    intro j hj i hi
    by_contra hc
    exact h ((select_addition_finite_iff E st R c hE hc0 hcb).mpr
      ⟨j, hj, i, hi, hc⟩)

theorem step_some_spec {D : Nat} (E : LSInput D) (st : SolState D)
    (R : List Nat) (c : ℚ) (st' : SolState D)
    (h : try_job_additions_step E st R c = some st') :
    ∃ j ∈ st.unassigned, ∃ i, i < R.length ∧
      cand_cost E st R j i ≠ gain_max ∧
      select_addition E st R c =
        (cand_eval E st R c j i, j, R.getD i 0, cand_rank E st R j i) ∧
      st' = apply_addition E st j (R.getD i 0) (cand_rank E st R j i) := by
  unfold try_job_additions_step at h
  by_cases hlt : (select_addition E st R c).1 < double_max
  · rw [if_pos hlt] at h
    rcases select_addition_attained E st R c with heq | ⟨_, j, hj, i, hi, hc, heq⟩
    · rw [heq] at hlt
      exact absurd hlt (lt_irrefl _)
    · refine ⟨j, hj, i, hi, hc, heq, ?_⟩
      rw [heq] at h
      exact (Option.some_injective _ h).symm
  · rw [if_neg hlt] at h
    exact absurd h (Option.noConfusion)

theorem step_decreases_unassigned {D : Nat} (E : LSInput D)
    (st : SolState D) (R : List Nat) (c : ℚ) (st' : SolState D)
    (h : try_job_additions_step E st R c = some st') :
    st'.unassigned.length + 1 = st.unassigned.length := by
  obtain ⟨j, hj, i, hi, hc, hsel, heq⟩ := step_some_spec E st R c st' h
  rw [heq]
  show (st.unassigned.erase j).length + 1 = st.unassigned.length
  rw [List.length_erase_of_mem hj]
  have := List.length_pos.mpr (List.ne_nil_of_mem hj)
  omega

theorem tja_go_fix {D : Nat} (E : LSInput D) (R : List Nat) (c : ℚ) :
    ∀ (fuel : Nat) (st : SolState D), st.unassigned.length ≤ fuel →
      try_job_additions_step E (try_job_additions_go E R c fuel st) R c =
        none := by
  intro fuel
  induction fuel with
  | zero =>
    intro st h
    have hu : st.unassigned = [] :=
      List.length_eq_zero.mp (Nat.le_zero.mp h)
    show try_job_additions_step E st R c = none
    unfold try_job_additions_step select_addition
    rw [hu]
    simp only [List.foldl_nil]
    rw [if_neg (lt_irrefl double_max)]
  | succ fuel ih =>
    intro st h
    show try_job_additions_step E
      (try_job_additions_go E R c (fuel + 1) st) R c = none
    unfold try_job_additions_go
    cases hro : try_job_additions_step E st R c with
    | none => exact hro
    | some st' =>
      have hlen := step_decreases_unassigned E st R c st' hro
      exact ih st' (by omega)

/-- The loop of `try_job_additions` reaches a fixpoint: on the returned
state no further insertion is possible. -/
theorem try_job_additions_fix {D : Nat} (E : LSInput D) (R : List Nat)
    (c : ℚ) (st : SolState D) :
    try_job_additions_step E (try_job_additions E R c st) R c = none :=
  tja_go_fix E R c st.unassigned.length st (le_refl _)

theorem getD_mem_of_lt (R : List Nat) (i : Nat) (hi : i < R.length) :
    R.getD i 0 ∈ R := by
  rw [List.getD_eq_getElem?_getD, List.getElem?_eq_getElem hi,
    Option.getD_some]
  exact List.getElem_mem hi

theorem tja_go_routes_untouched {D : Nat} (E : LSInput D) (R : List Nat)
    (c : ℚ) :
    ∀ (fuel : Nat) (st : SolState D) (w : Nat), w ∉ R →
      (try_job_additions_go E R c fuel st).routes w = st.routes w := by
  intro fuel
  induction fuel with
  | zero => intro st w _; rfl
  | succ fuel ih =>
    intro st w hw
    show (try_job_additions_go E R c (fuel + 1) st).routes w = st.routes w
    unfold try_job_additions_go
    cases hro : try_job_additions_step E st R c with
    | none => rfl
    | some st' =>
      rw [ih st' w hw]
      obtain ⟨j, hj, i, hi, hc, hsel, heq⟩ := step_some_spec E st R c st' hro
      rw [heq]
      show (if w = R.getD i 0 then _ else st.routes w) = st.routes w
      rw [if_neg ?_]
      intro hcontra
      exact hw (hcontra ▸ getD_mem_of_lt R i hi)

/-- Routes outside the candidate list are never modified by
`try_job_additions`. -/
theorem try_job_additions_routes_untouched {D : Nat} (E : LSInput D)
    (R : List Nat) (c : ℚ) (st : SolState D) (w : Nat) (hw : w ∉ R) :
    (try_job_additions E R c st).routes w = st.routes w :=
  tja_go_routes_untouched E R c st.unassigned.length st w hw

/-- `run()` lines 404-406: after an accepted move, the engine calls
`try_job_additions` with the move's `addition_candidates()` and regret
coefficient 0. -/
def run_reinsertion {D : Nat} (E : LSInput D) (m : MoveModel Nat)
    (st : SolState D) : SolState D :=
  try_job_additions E m.addition_candidates 0 st

/-- Concrete collaborators for the candidate-list counterexample: every
vehicle accepts every job with ample capacity, but only route 0 passes the
time-window insertion check; every insertion costs 3. -/
def cex_input : LSInput 1 :=
  ⟨fun _ => fun _ => 1, fun _ => fun _ => 10, fun _ _ => true,
   fun v _ _ _ => decide (v = 0), fun _ _ _ _ => 3, fun _ _ => 0⟩

/-- Two empty routes; job 7 unassigned. -/
def cex_state : SolState 1 :=
  ⟨fun _ => [], fun _ => [], fun _ => [], fun _ => 0, [7]⟩

/-- Claim C4, counterexample: the elements of the list passed to
`try_job_additions` index ROUTES, not jobs, and they restrict where
insertions may happen rather than serving as a mere hint.  With job 7
unassigned and insertable only into route 0, calling with the list `[1]`
inserts nothing (job 7 stays unassigned), while calling with `[0]`
inserts it — so the reinsertion loop does not search insertions beyond
the listed routes, contradicting "a set of job indices … it serves only
as a hint". -/
theorem addition_candidates_are_route_indices :
    (try_job_additions cex_input [1] 0 cex_state).unassigned = [7] ∧
    (try_job_additions cex_input [0] 0 cex_state).unassigned = [] := by
  have hc1 : cand_cost cex_input cex_state [1] 7 0 = gain_max := by decide
  have hc0 : cand_cost cex_input cex_state [0] 7 0 = 3 := by decide
  have hne : cand_cost cex_input cex_state [0] 7 0 ≠ gain_max := by
    rw [hc0]; decide
  have hr0 : cand_rank cex_input cex_state [0] 7 0 = 0 := by decide
  have heval : cand_eval cex_input cex_state [0] 0 7 0 < double_max := by
    unfold cand_eval
    rw [hc0, zero_mul, sub_zero]
    show ((3 : Int) : ℚ) < double_max
    norm_num [double_max]
  have hsel1 : select_addition cex_input cex_state [1] 0 =
      (double_max, 0, 0, 0) := by
    show List.foldl (eval_routes_for_job cex_input cex_state [1] 0)
      (double_max, 0, 0, 0) [7] = _
    rw [List.foldl_cons, List.foldl_nil]
    show List.foldl (route_step cex_input cex_state [1] 0 7)
      (double_max, 0, 0, 0) [0] = _
    rw [List.foldl_cons, List.foldl_nil]
    unfold route_step
    rw [if_pos hc1]
  have hstep1 : try_job_additions_step cex_input cex_state [1] 0 = none := by
    simp only [try_job_additions_step]
    rw [hsel1]
    rw [if_neg (lt_irrefl double_max)]
  have hsel0 : select_addition cex_input cex_state [0] 0 =
      (cand_eval cex_input cex_state [0] 0 7 0, 7, 0, 0) := by
    show List.foldl (eval_routes_for_job cex_input cex_state [0] 0)
      (double_max, 0, 0, 0) [7] = _
    rw [List.foldl_cons, List.foldl_nil]
    show List.foldl (route_step cex_input cex_state [0] 0 7)
      (double_max, 0, 0, 0) [0] = _
    rw [List.foldl_cons, List.foldl_nil]
    unfold route_step
    rw [if_neg hne, if_pos heval, hr0]
    rfl
  have hstep0 : try_job_additions_step cex_input cex_state [0] 0 =
      some (apply_addition cex_input cex_state 7 0 0) := by
    simp only [try_job_additions_step]
    rw [hsel0]
    rw [if_pos heval]
  constructor
  · show (try_job_additions_go cex_input [1] 0 1 cex_state).unassigned = [7]
    unfold try_job_additions_go
    rw [hstep1]
    rfl
  · show (try_job_additions_go cex_input [0] 0 1 cex_state).unassigned = []
    unfold try_job_additions_go
    rw [hstep0]
    rfl

/-- Claim C4, amended: for every accepted move, `run()` passes the move's
`addition_candidates()` — a list of route (vehicle) indices — together
with regret coefficient 0 to `try_job_additions`; the reinsertion loop
searches all unassigned jobs, but tries insertions only into the candidate
routes: routes outside the list are never modified, and a pass inserts
nothing exactly when no unassigned job has a feasible insertion into any
candidate route. -/
theorem addition_candidates_route_semantics {D : Nat} (E : LSInput D)
    (m : MoveModel Nat) (st : SolState D) (hE : CostBounded E) :
    run_reinsertion E m st =
      try_job_additions E m.addition_candidates 0 st ∧
    (∀ w, w ∉ m.addition_candidates →
      (run_reinsertion E m st).routes w = st.routes w) ∧
    (∀ st₂ : SolState D,
      try_job_additions_step E st₂ m.addition_candidates 0 = none ↔
        ∀ j ∈ st₂.unassigned, ∀ i, i < m.addition_candidates.length →
          cand_cost E st₂ m.addition_candidates j i = gain_max) :=
  ⟨rfl,
   fun w hw => try_job_additions_routes_untouched E _ 0 st w hw,
   fun st₂ => step_none_iff E st₂ _ 0 hE (le_refl 0)
     (by unfold gain_max; norm_num)⟩

/-- A concrete promoted move whose candidate list is route 0. -/
def cex_move : MoveModel Nat :=
  ⟨0, 1, 0, fun ro => ro, [0]⟩

theorem addition_candidates_route_semantics_witness :
    CostBounded cex_input ∧
    (run_reinsertion cex_input cex_move cex_state =
      try_job_additions cex_input cex_move.addition_candidates 0
        cex_state) ∧
    (∀ w, w ∉ cex_move.addition_candidates →
      (run_reinsertion cex_input cex_move cex_state).routes w =
        cex_state.routes w) :=
  ⟨fun _ _ _ _ => by show -gain_max ≤ (3 : Int); decide,
   (addition_candidates_route_semantics cex_input cex_move cex_state
     (fun _ _ _ _ => by show -gain_max ≤ (3 : Int); decide)).1,
   (addition_candidates_route_semantics cex_input cex_move cex_state
     (fun _ _ _ _ => by show -gain_max ≤ (3 : Int); decide)).2.1⟩

/-- Claim C5: for every call of `try_job_additions` with candidate routes
`R` and regret coefficient `c` (each pass over the current state `st`):
(1) an incompatible (vehicle/skill predicate or capacity) route
contributes the sentinel +∞; (2) a compatible route's `best_costs` entry
is a lower bound on the addition cost of every tw-valid rank and (3) is
+∞ or attained at the recorded tw-valid in-range rank; (4) the selected
score is minimal over all finite candidates, where the score is
`best_costs[i] − c·(second_smallest if i is the argmin position else
smallest)`; (5) an insertion happens iff some finite choice exists, and
then the state is updated by exactly the selected (job, route, rank);
(6) passes repeat until no insertion is possible; (7) `smallest` and
`second_smallest` of the two-smallest scan are, for every job's
`best_costs` row, the minimum over all positions and the minimum over the
positions other than `smallest_idx` (see also `smallest_two_spec`).
Stated under the machine-integer bound on costs, `0 ≤ c ≤ gain_max`, and
candidate lists shorter than the size_t sentinel. -/
theorem try_job_additions_regret_selection {D : Nat} (E : LSInput D)
    (st : SolState D) (R : List Nat) (c : ℚ) (hE : CostBounded E)
    (hc0 : 0 ≤ c) (hcb : c ≤ (gain_max : ℚ))
    (hR : R.length ≤ smallest_idx_init) :
    (∀ j v, ¬ (E.vehicle_ok_with_job v j = true ∧
        st_total_amount st v + E.job_amount j ≤ E.capacity v) →
      best_cost_rank E st j v = (gain_max, 0)) ∧
    (∀ j v, (E.vehicle_ok_with_job v j = true ∧
        st_total_amount st v + E.job_amount j ≤ E.capacity v) →
      ∀ r, r < (st.routes v).length + 1 →
        E.is_valid_addition_for_tw v (st.routes v) j r = true →
        (best_cost_rank E st j v).1 ≤
          E.addition_cost v (st.routes v) j r) ∧
    (∀ j v, (best_cost_rank E st j v).1 = gain_max ∨
      ((best_cost_rank E st j v).1 < gain_max ∧
        (E.vehicle_ok_with_job v j = true ∧
          st_total_amount st v + E.job_amount j ≤ E.capacity v) ∧
        (best_cost_rank E st j v).2 < (st.routes v).length + 1 ∧
        E.is_valid_addition_for_tw v (st.routes v) j
          (best_cost_rank E st j v).2 = true ∧
        (best_cost_rank E st j v).1 =
          E.addition_cost v (st.routes v) j
            (best_cost_rank E st j v).2)) ∧
    (∀ j i, j ∈ st.unassigned → i < R.length →
      cand_cost E st R j i ≠ gain_max →
      (select_addition E st R c).1 ≤ cand_eval E st R c j i) ∧
    ((select_addition E st R c).1 < double_max ↔
      ∃ j ∈ st.unassigned, ∃ i, i < R.length ∧
        cand_cost E st R j i ≠ gain_max) ∧
    (∀ st', try_job_additions_step E st R c = some st' →
      ∃ j ∈ st.unassigned, ∃ i, i < R.length ∧
        cand_cost E st R j i ≠ gain_max ∧
        select_addition E st R c =
          (cand_eval E st R c j i, j, R.getD i 0,
            cand_rank E st R j i) ∧
        st' = apply_addition E st j (R.getD i 0)
          (cand_rank E st R j i)) ∧
    try_job_additions_step E (try_job_additions E R c st) R c = none ∧
    (∀ j,
      (∀ p ∈ ((R.map (fun v => best_cost_rank E st j v)).map
          Prod.fst).enum,
        (smallest_two ((R.map (fun v => best_cost_rank E st j v)).map
          Prod.fst)).1 ≤ p.2) ∧
      (∀ p ∈ ((R.map (fun v => best_cost_rank E st j v)).map
          Prod.fst).enum,
        p.1 ≠ (smallest_two ((R.map (fun v => best_cost_rank E st j v)).map
          Prod.fst)).2.2 →
        (smallest_two ((R.map (fun v => best_cost_rank E st j v)).map
          Prod.fst)).2.1 ≤ p.2)) :=
  ⟨fun j v h => best_cost_rank_incompatible E st j v h,
   fun j v hcompat r hr hvalid =>
     best_cost_rank_le E st j v hcompat r hr hvalid,
   fun j v => best_cost_rank_attained E st j v,
   fun j i hj hi hc => select_addition_min E st R c j i hj hi hc,
   select_addition_finite_iff E st R c hE hc0 hcb,
   fun st' h => step_some_spec E st R c st' h,
   try_job_additions_fix E R c st,
   fun j =>
     ⟨(smallest_two_spec _ (by simp [List.length_map]; exact hR)).1,
      (smallest_two_spec _ (by simp [List.length_map]; exact hR)).2.2.1⟩⟩

theorem try_job_additions_regret_selection_witness :
    (CostBounded cex_input ∧ (0 : ℚ) ≤ 0 ∧ (0 : ℚ) ≤ (gain_max : ℚ) ∧
      ([0] : List Nat).length ≤ smallest_idx_init) ∧
    ((select_addition cex_input cex_state [0] 0).1 < double_max ↔
      ∃ j ∈ cex_state.unassigned, ∃ i, i < ([0] : List Nat).length ∧
        cand_cost cex_input cex_state [0] j i ≠ gain_max) ∧
    try_job_additions_step cex_input
      (try_job_additions cex_input [0] 0 cex_state) [0] 0 = none :=
  ⟨⟨fun _ _ _ _ => by show -gain_max ≤ (3 : Int); decide, le_refl 0,
    by unfold gain_max; norm_num, by unfold smallest_idx_init; norm_num⟩,
   (try_job_additions_regret_selection cex_input cex_state [0] 0
     (fun _ _ _ _ => by show -gain_max ≤ (3 : Int); decide) (le_refl 0)
     (by unfold gain_max; norm_num)
     (by unfold smallest_idx_init; norm_num)).2.2.2.2.1,
   (try_job_additions_regret_selection cex_input cex_state [0] 0
     (fun _ _ _ _ => by show -gain_max ≤ (3 : Int); decide) (le_refl 0)
     (by unfold gain_max; norm_num)
     (by unfold smallest_idx_init; norm_num)).2.2.2.2.2.2.1⟩

end Vroom
